import Mathlib

/-!
Verification of the mini-batch construction and packing pipeline of
`src/DMM/util.py`: `reverse_sequences`, `get_mini_batch_mask`, `batchify`,
`get_mini_batch` and `pad_and_reverse`, together with models of the torch
primitives they call (`torch.sort(...).flip(0)`, `pad_sequence`,
`pack_padded_sequence`, `pad_packed_sequence`).

Modelling conventions:
* tensors are nested lists of integers; a batch is `List (List (List ℤ))`
  with axes (batch, time, feature);
* numpy fancy indexing `a[idx]` is `gather a d idx`, reading with `List.getD`;
* `torch.sort` (ascending, on a 1-D integer tensor) is modelled as a stable
  ascending argsort: ties keep their original relative order, the standard
  deterministic refinement of its unspecified tie order; `.flip(0)` is
  `List.reverse`;
* `pack_padded_sequence` (with its default `enforce_sorted=True`) raises at
  runtime when the batch is empty, the lengths disagree with the batch size,
  a length is zero, or the lengths are not non-increasing; it is therefore
  modelled as returning an `Option`;
* the `cuda` flags only move tensors between devices and are dropped.
-/

namespace DMM

/-! ### Generic list helpers -/

/-- Numpy-style fancy indexing: `gather l d idx = l[idx]`, with default `d`
for out-of-range positions (numpy would raise there; all theorems below keep
indices in range). -/
def gather {α : Type} (l : List α) (d : α) (idx : List ℕ) : List α :=
  idx.map (fun i => l.getD i d)

@[simp] theorem gather_length {α : Type} (l : List α) (d : α) (idx : List ℕ) :
    (gather l d idx).length = idx.length := by
  simp [gather]

theorem getD_eq_getElem {α : Type} (l : List α) (d : α) {n : ℕ} (h : n < l.length) :
    l.getD n d = l[n] := by
  simp [List.getD_eq_getElem?_getD, List.getElem?_eq_getElem h]

theorem getD_eq_default {α : Type} (l : List α) (d : α) {n : ℕ} (h : l.length ≤ n) :
    l.getD n d = d := by
  simp [List.getD_eq_getElem?_getD, List.getElem?_eq_none h]

theorem gather_getD {α : Type} (l : List α) (d : α) (idx : List ℕ) {b : ℕ}
    (hb : b < idx.length) : (gather l d idx).getD b d = l.getD (idx.getD b 0) d := by
  have hb2 : b < (gather l d idx).length := by simpa using hb
  have h1 : (gather l d idx).getD b d = (gather l d idx)[b] :=
    getD_eq_getElem _ _ hb2
  rw [h1]
  simp [gather, List.getD_eq_getElem?_getD, List.getElem?_eq_getElem hb]

theorem getD_map_range {α : Type} (f : ℕ → α) (d : α) {t n : ℕ} (h : t < n) :
    ((List.range n).map f).getD t d = f t := by
  have : t < ((List.range n).map f).length := by simpa using h
  rw [getD_eq_getElem _ _ this]
  simp

/-! ### Model of `torch.sort` ascending followed by `.flip(0)` -/

/-- Ascending lexicographic comparison on (value, original position) pairs.
Sorting such pairs by `pairLe` is exactly a stable ascending sort by value. -/
def pairLe (a b : ℕ × ℕ) : Prop :=
  a.1 < b.1 ∨ (a.1 = b.1 ∧ a.2 ≤ b.2)

instance : DecidableRel pairLe := fun a b => by
  unfold pairLe; infer_instance

instance : IsTotal (ℕ × ℕ) pairLe := ⟨by intro a b; unfold pairLe; omega⟩

instance : IsTrans (ℕ × ℕ) pairLe := ⟨by intro a b c; unfold pairLe; omega⟩

/-- The (value, position) pairs of a list of lengths. -/
def lenPairs (l : List ℕ) : List (ℕ × ℕ) :=
  (List.range l.length).map (fun i => (l.getD i 0, i))

/-- Model of `torch.sort(lengths).indices` (ascending, stable ties). -/
def torchSortAscIndices (l : List ℕ) : List ℕ :=
  (List.insertionSort pairLe (lenPairs l)).map Prod.snd

/-- Model of `sorted_seq_length_indices = torch.sort(seq_lengths).indices.flip(0)`
(util.py lines 285-286): a descending argsort whose ties come out in
reversed original order, because flipping reverses the stable ascending ties. -/
def argsortDesc (l : List ℕ) : List ℕ :=
  (torchSortAscIndices l).reverse

/-! ### Model of the tensor helpers of util.py -/

/-- A row of zeros with the same width as `r` (the slice of `torch.zeros_like`
at one (batch, time) position). -/
def zeroRow (r : List ℤ) : List ℤ :=
  r.map (fun _ => 0)

/-- Model of `reverse_sequences` (util.py lines 227-234): starts from
`torch.zeros_like(mini_batch)` and writes, for every row `b` with declared
length `T`, the reversed valid prefix `mini_batch[b, T-1-t]` into positions
`t < T`; positions `t ≥ T` keep the zeros. -/
def reverse_sequences (mini_batch : List (List (List ℤ))) (seq_lengths : List ℕ) :
    List (List (List ℤ)) :=
  (mini_batch.zip seq_lengths).map (fun p =>
    (List.range p.1.length).map (fun t =>
      if t < p.2 then p.1.getD (p.2 - 1 - t) [] else zeroRow (p.1.getD t [])))

/-- Model of `get_mini_batch_mask` (util.py lines 236-240): a 0/1 matrix with
ones exactly on the first `seq_lengths[b]` positions of row `b`.  (The mask of
row `b` has the time dimension of row `b`; on a rectangular tensor this is the
common `mini_batch.shape[1]`.) -/
def get_mini_batch_mask (mini_batch : List (List (List ℤ))) (seq_lengths : List ℕ) :
    List (List ℤ) :=
  (mini_batch.zip seq_lengths).map (fun p =>
    (List.range p.1.length).map (fun t => if t < p.2 then (1 : ℤ) else 0))

/-- The inner feature dimension used by `pad_sequence` for its zero padding:
the width of the first row of the first sequence (on a rectangular batch this
is the common feature dimension). -/
def rowDim (seqs : List (List (List ℤ))) : ℕ :=
  ((seqs.headD []).headD []).length

/-- Model of `torch.nn.utils.rnn.pad_sequence(·, batch_first=True)`: right-pads
every sequence with zero rows up to the longest sequence in the list. -/
def pad_sequence (seqs : List (List (List ℤ))) : List (List (List ℤ)) :=
  let tt := (seqs.map List.length).foldr max 0
  seqs.map (fun s => s ++ List.replicate (tt - s.length) (List.replicate (rowDim seqs) 0))

/-- Truncation `x[:T,:]` applied to every sequence of a list. -/
def truncSeqs (t : ℕ) (seqs : List (List (List ℤ))) : List (List (List ℤ)) :=
  seqs.map (List.take t)

/-! ### Model of `pack_padded_sequence` / `pad_packed_sequence` -/

/-- The packed data: for every time step `t`, the rows `x[b, t]` of the
examples whose length exceeds `t`, in batch order. -/
def packData (x : List (List (List ℤ))) (lengths : List ℕ) : List (List ℤ) :=
  (List.range (lengths.foldr max 0)).flatMap (fun t =>
    ((x.zip lengths).filter (fun p => decide (t < p.2))).map (fun p => p.1.getD t []))

/-- The per-time-step batch sizes of the packed representation. -/
def packBatchSizes (lengths : List ℕ) : List ℕ :=
  (List.range (lengths.foldr max 0)).map (fun t =>
    (lengths.filter (fun v => decide (t < v))).length)

structure PackedSequence where
  data : List (List ℤ)
  batch_sizes : List ℕ
deriving DecidableEq

/-- Model of `torch.nn.utils.rnn.pack_padded_sequence(x, lengths,
batch_first=True)` with the default `enforce_sorted=True`: `none` models the
runtime errors it raises on an empty batch, on a length count that differs
from the batch size, on a non-positive length, or on lengths that are not
non-increasing. -/
def pack_padded_sequence (x : List (List (List ℤ))) (lengths : List ℕ) :
    Option PackedSequence :=
  if lengths ≠ [] ∧ lengths.length = x.length ∧ (∀ v ∈ lengths, 0 < v) ∧
      lengths.Pairwise (· ≥ ·) then
    some ⟨packData x lengths, packBatchSizes lengths⟩
  else
    none

/-- Model of `torch.nn.utils.rnn.pad_packed_sequence(·, batch_first=True)`
(the tensor component): reconstructs the dense zero-padded batch, whose batch
size is the first packed batch size and whose time dimension is the number of
packed time steps. -/
def pad_packed_sequence (p : PackedSequence) : List (List (List ℤ)) :=
  (List.range (p.batch_sizes.headD 0)).map (fun b =>
    (List.range p.batch_sizes.length).map (fun t =>
      if b < p.batch_sizes.getD t 0 then
        p.data.getD ((p.batch_sizes.take t).sum + b) []
      else
        List.replicate (p.data.headD []).length 0))

/-- Model of `pad_and_reverse` (util.py lines 356-359). -/
def pad_and_reverse (rnn_output : PackedSequence) (seq_lengths : List ℕ) :
    List (List (List ℤ)) :=
  reverse_sequences (pad_packed_sequence rnn_output) seq_lengths

/-! ### Model of `get_mini_batch` (util.py lines 274-352)

The intermediate tensors of `get_mini_batch` are named top-level definitions so
that theorems can speak about them; `get_mini_batch` assembles exactly these. -/

/-- `seq_lengths = seq_lengths[mini_batch_indices]` (util.py line 281). -/
def batchLengths (seq_lengths : List ℕ) (mini_batch_indices : List ℕ) : List ℕ :=
  gather seq_lengths 0 mini_batch_indices

/-- `sorted_seq_length_indices` (util.py lines 285-286). -/
def sortedBatchIdx (seq_lengths : List ℕ) (mini_batch_indices : List ℕ) : List ℕ :=
  argsortDesc (batchLengths seq_lengths mini_batch_indices)

/-- `sorted_seq_lengths = seq_lengths[sorted_seq_length_indices]` (line 287). -/
def sortedSeqLengths (seq_lengths : List ℕ) (mini_batch_indices : List ℕ) : List ℕ :=
  gather (batchLengths seq_lengths mini_batch_indices) 0
    (sortedBatchIdx seq_lengths mini_batch_indices)

/-- `sorted_mini_batch_indices = mini_batch_indices[sorted_seq_length_indices]`
(line 288). -/
def sortedMBI (seq_lengths : List ℕ) (mini_batch_indices : List ℕ) : List ℕ :=
  gather mini_batch_indices 0 (sortedBatchIdx seq_lengths mini_batch_indices)

/-- `T_max = torch.max(seq_lengths)` (line 291; `torch.max` of the gathered
lengths, modelled as a fold with 0 for the impossible empty case). -/
def tMax (seq_lengths : List ℕ) (mini_batch_indices : List ℕ) : ℕ :=
  (batchLengths seq_lengths mini_batch_indices).foldr max 0

/-- The dense sorted `mini_batch` (lines 293-294): every selected sequence is
truncated to `T_max` rows and the list is zero-padded by `pad_sequence`. -/
def paddedBatch (sequences : List (List (List ℤ))) (seq_lengths : List ℕ)
    (mini_batch_indices : List ℕ) : List (List (List ℤ)) :=
  pad_sequence (truncSeqs (tMax seq_lengths mini_batch_indices)
    (gather sequences [] (sortedMBI seq_lengths mini_batch_indices)))

/-- The dense sorted `mini_batch_feature_mask` (lines 322-323 and 329-330, the
same computation in both branches). -/
def paddedFeatureMask (sequences_feature_mask : List (List (List ℤ)))
    (seq_lengths : List ℕ) (mini_batch_indices : List ℕ) : List (List (List ℤ)) :=
  pad_sequence (truncSeqs (tMax seq_lengths mini_batch_indices)
    (gather sequences_feature_mask [] (sortedMBI seq_lengths mini_batch_indices)))

/-- `torch.cat((a, b), dim=-1)`: concatenation along the feature axis. -/
def catChannels (a b : List (List (List ℤ))) : List (List (List ℤ)) :=
  a.zipWith (fun ra rb => ra.zipWith (fun ea eb => ea ++ eb) rb) b

/-- The dense `mini_batch_reversed_with_mask` of util.py lines 316-332:
* no feature mask: reverse the plain `mini_batch`;
* feature mask present, `use_feature_mask=False`: still reverse only the plain
  `mini_batch`;
* feature mask present, `use_feature_mask=True`: channel-concatenate the
  feature mask onto `mini_batch` before reversing. -/
def reversedWithMask (mini_batch : List (List (List ℤ)))
    (fmPadded : Option (List (List (List ℤ)))) (use_feature_mask : Bool)
    (sorted_seq_lengths : List ℕ) : List (List (List ℤ)) :=
  match fmPadded, use_feature_mask with
  | none, _ => reverse_sequences mini_batch sorted_seq_lengths
  | some _, false => reverse_sequences mini_batch sorted_seq_lengths
  | some fm, true => reverse_sequences (catChannels mini_batch fm) sorted_seq_lengths

/-- The dense reversed representation handed to `pack_padded_sequence` by
`get_mini_batch`. -/
def gmbReversedDense (mini_batch_indices : List ℕ) (sequences : List (List (List ℤ)))
    (seq_lengths : List ℕ) (sequences_feature_mask : Option (List (List (List ℤ))))
    (use_feature_mask : Bool) : List (List (List ℤ)) :=
  reversedWithMask (paddedBatch sequences seq_lengths mini_batch_indices)
    (sequences_feature_mask.map
      (fun sfm => paddedFeatureMask sfm seq_lengths mini_batch_indices))
    use_feature_mask
    (sortedSeqLengths seq_lengths mini_batch_indices)

/-- The bundle returned by `get_mini_batch` (util.py line 352), in the order of
the returned tuple. -/
structure MiniBatch where
  static : List (List ℤ)
  sequence : List (List (List ℤ))
  reversed_packed : Option PackedSequence
  mask : List (List ℤ)
  sorted_seq_lengths : List ℕ
  feature_mask : Option (List (List (List ℤ)))
  y : Option (List ℤ)
  y_mask : Option (List ℤ)
  source_indices : List ℕ
deriving DecidableEq

instance : Inhabited MiniBatch :=
  ⟨⟨[], [], none, [], [], none, none, none, []⟩⟩

/-- Model of `get_mini_batch` (util.py lines 274-352).  The `cuda` flag only
moves tensors to the device and is dropped. -/
def get_mini_batch (mini_batch_indices : List ℕ) (sequences : List (List (List ℤ)))
    (seq_lengths : List ℕ) (sequences_feature_mask : Option (List (List (List ℤ))))
    (static : List (List ℤ)) (y_sequence : Option (List ℤ))
    (y_mask_sequence : Option (List ℤ)) (indices_dataset : List ℕ)
    (use_feature_mask : Bool) : MiniBatch :=
  let smbi := sortedMBI seq_lengths mini_batch_indices
  let sorted := sortedSeqLengths seq_lengths mini_batch_indices
  let mini_batch := paddedBatch sequences seq_lengths mini_batch_indices
  { static := gather static [] smbi
    sequence := mini_batch
    reversed_packed := pack_padded_sequence
      (gmbReversedDense mini_batch_indices sequences seq_lengths
        sequences_feature_mask use_feature_mask) sorted
    mask := get_mini_batch_mask mini_batch sorted
    sorted_seq_lengths := sorted
    feature_mask := sequences_feature_mask.map
      (fun sfm => paddedFeatureMask sfm seq_lengths mini_batch_indices)
    y := y_sequence.map (fun ys => gather ys 0 smbi)
    y_mask := y_mask_sequence.map (fun ys => gather ys 0 smbi)
    source_indices := gather indices_dataset 0 smbi }

/-! ### Model of `batchify` (util.py lines 242-272) -/

/-- `keep_index = np.where(np.logical_and(seq_lengths <= max_len,
seq_lengths > 0))[0]` (line 244): the kept dataset positions, in increasing
order. -/
def keepIndex (seq_lengths : List ℕ) (max_len : ℕ) : List ℕ :=
  (List.range seq_lengths.length).filter
    (fun i => decide (seq_lengths.getD i 0 ≤ max_len) && decide (0 < seq_lengths.getD i 0))

/-- `N_mini_batches = int(N_data / batch_size + int(N_data % batch_size > 0))`
(lines 258-259; the float expression computes the ceiling of the exact
division, modelled with natural division). -/
def nMiniBatches (n batch_size : ℕ) : ℕ :=
  n / batch_size + (if n % batch_size > 0 then 1 else 0)

/-- `mini_batch_indices = shuffled_indices[start:end]` with
`shuffled_indices = np.arange(N_data)`, `start = k * batch_size` and
`end = min((k+1) * batch_size, N_data)` (lines 261-268). -/
def batchIndices (n batch_size k : ℕ) : List ℕ :=
  ((List.range n).drop (k * batch_size)).take batch_size

/-- Model of `batchify` (util.py lines 242-272): filter every parallel array by
`keep_index`, then call `get_mini_batch` on consecutive index chunks, passing
`keep_index` as `indices_dataset`.  The `cuda` flag is dropped. -/
def batchify (sequences : List (List (List ℤ))) (seq_lengths : List ℕ)
    (sequences_feature_mask : Option (List (List (List ℤ))))
    (static : List (List ℤ)) (y_sequence : Option (List ℤ))
    (y_mask_sequence : Option (List ℤ)) (max_len batch_size : ℕ)
    (use_feature_mask : Bool) : List MiniBatch :=
  let keep_index := keepIndex seq_lengths max_len
  let static2 := gather static [] keep_index
  let sequences2 := gather sequences [] keep_index
  let seq_lengths2 := gather seq_lengths 0 keep_index
  let fm2 := sequences_feature_mask.map (fun m => gather m [] keep_index)
  let y2 := y_sequence.map (fun m => gather m 0 keep_index)
  let ym2 := y_mask_sequence.map (fun m => gather m 0 keep_index)
  let n := seq_lengths2.length
  (List.range (nMiniBatches n batch_size)).map (fun k =>
    get_mini_batch (batchIndices n batch_size k) sequences2 seq_lengths2 fm2
      static2 y2 ym2 keep_index use_feature_mask)

/-! ### Lemmas about the sort model -/

/-- The ascending stable sort of the (value, position) pairs. -/
def sortedPairs (l : List ℕ) : List (ℕ × ℕ) :=
  List.insertionSort pairLe (lenPairs l)

@[simp] theorem lenPairs_length (l : List ℕ) : (lenPairs l).length = l.length := by
  simp [lenPairs]

theorem lenPairs_map_snd (l : List ℕ) : (lenPairs l).map Prod.snd = List.range l.length := by
  simp [lenPairs, List.map_map]
  exact List.map_id _

theorem lenPairs_mem {l : List ℕ} {p : ℕ × ℕ} (hp : p ∈ lenPairs l) :
    p.1 = l.getD p.2 0 ∧ p.2 < l.length := by
  simp only [lenPairs, List.mem_map, List.mem_range] at hp
  obtain ⟨i, hi, rfl⟩ := hp
  exact ⟨rfl, hi⟩

theorem sortedPairs_perm (l : List ℕ) : List.Perm (sortedPairs l) (lenPairs l) :=
  List.perm_insertionSort pairLe (lenPairs l)

theorem sortedPairs_sorted (l : List ℕ) : (sortedPairs l).Pairwise pairLe :=
  List.sorted_insertionSort pairLe (lenPairs l)

theorem sortedPairs_mem {l : List ℕ} {p : ℕ × ℕ} (hp : p ∈ sortedPairs l) :
    p.1 = l.getD p.2 0 ∧ p.2 < l.length :=
  lenPairs_mem ((sortedPairs_perm l).mem_iff.mp hp)

theorem argsortDesc_eq (l : List ℕ) :
    argsortDesc l = ((sortedPairs l).reverse).map Prod.snd := by
  simp [argsortDesc, torchSortAscIndices, sortedPairs, List.map_reverse]

theorem argsortDesc_perm (l : List ℕ) :
    List.Perm (argsortDesc l) (List.range l.length) := by
  rw [argsortDesc_eq]
  have h1 : List.Perm ((sortedPairs l).reverse) (lenPairs l) :=
    ((sortedPairs l).reverse_perm).trans (sortedPairs_perm l)
  have h3 := h1.map Prod.snd
  rwa [lenPairs_map_snd] at h3

@[simp] theorem argsortDesc_length (l : List ℕ) : (argsortDesc l).length = l.length := by
  simpa using (argsortDesc_perm l).length_eq

theorem argsortDesc_mem {l : List ℕ} {i : ℕ} (hi : i ∈ argsortDesc l) : i < l.length := by
  simpa using (argsortDesc_perm l).mem_iff.mp hi

theorem argsortDesc_nodup (l : List ℕ) : (argsortDesc l).Nodup :=
  ((argsortDesc_perm l).symm.nodup (List.nodup_range _))

theorem gather_argsortDesc_eq_map_fst (l : List ℕ) :
    gather l 0 (argsortDesc l) = ((sortedPairs l).reverse).map Prod.fst := by
  rw [argsortDesc_eq, gather, List.map_map]
  refine List.map_congr_left (fun p hp => ?_)
  exact ((sortedPairs_mem (List.mem_reverse.mp hp)).1).symm

theorem gather_argsortDesc_pairwise (l : List ℕ) :
    (gather l 0 (argsortDesc l)).Pairwise (· ≥ ·) := by
  rw [gather_argsortDesc_eq_map_fst]
  rw [List.pairwise_map, List.pairwise_reverse]
  refine (sortedPairs_sorted l).imp ?_
  intro a b hab
  rcases hab with h | ⟨h, _⟩ <;> omega

theorem map_getD_range {α : Type} (l : List α) (d : α) :
    (List.range l.length).map (fun i => l.getD i d) = l := by
  refine List.ext_getElem (by simp) (fun i hi hl => ?_)
  simp only [List.getElem_map, List.getElem_range]
  exact getD_eq_getElem l d (by simpa using hl)

theorem gather_argsortDesc_perm (l : List ℕ) : List.Perm (gather l 0 (argsortDesc l)) l := by
  have h1 : List.Perm (gather l 0 (argsortDesc l))
      ((List.range l.length).map (fun i => l.getD i 0)) := (argsortDesc_perm l).map _
  rwa [map_getD_range] at h1

theorem antistable_aux {l : List ℕ} {s : List (ℕ × ℕ)}
    (hsorted : s.Pairwise (fun a b => pairLe b a))
    (hnodup : (s.map Prod.snd).Nodup)
    (hmem : ∀ x ∈ s, x.1 = l.getD x.2 0)
    {p q : ℕ} (hpq : p < q) (hq : q < s.length)
    (heq : l.getD ((s.map Prod.snd).getD p 0) 0 = l.getD ((s.map Prod.snd).getD q 0) 0) :
    (s.map Prod.snd).getD q 0 < (s.map Prod.snd).getD p 0 := by
  have hp : p < s.length := Nat.lt_trans hpq hq
  have hgp : (s.map Prod.snd).getD p 0 = (s[p]).2 := by
    rw [getD_eq_getElem _ _ (by simpa using hp)]; simp
  have hgq : (s.map Prod.snd).getD q 0 = (s[q]).2 := by
    rw [getD_eq_getElem _ _ (by simpa using hq)]; simp
  rw [hgp, hgq] at heq ⊢
  have hvp : (s[p]).1 = l.getD (s[p]).2 0 := hmem _ (List.getElem_mem hp)
  have hvq : (s[q]).1 = l.getD (s[q]).2 0 := hmem _ (List.getElem_mem hq)
  have hle : pairLe (s[q]) (s[p]) :=
    (List.pairwise_iff_getElem.mp hsorted) p q hp hq hpq
  have hne : (s[p]).2 ≠ (s[q]).2 := by
    have h2 := (List.pairwise_iff_getElem.mp hnodup) p q (by simpa using hp)
      (by simpa using hq) hpq
    simpa using h2
  rcases hle with h | ⟨h1, h2⟩ <;> omega

theorem argsortDesc_antistable {l : List ℕ} {p q : ℕ} (hpq : p < q)
    (hq : q < (argsortDesc l).length)
    (heq : l.getD ((argsortDesc l).getD p 0) 0 = l.getD ((argsortDesc l).getD q 0) 0) :
    (argsortDesc l).getD q 0 < (argsortDesc l).getD p 0 := by
  have h0 : argsortDesc l = ((sortedPairs l).reverse).map Prod.snd := argsortDesc_eq l
  rw [h0] at hq heq ⊢
  refine antistable_aux ?_ ?_ ?_ hpq (by simpa using hq) heq
  · exact List.pairwise_reverse.mpr (sortedPairs_sorted l)
  · rw [← h0]; exact argsortDesc_nodup l
  · exact fun x hx => (sortedPairs_mem (List.mem_reverse.mp hx)).1

/-! ### Lemmas about maxima and the sorted batch lengths -/

theorem foldr_max_le {l : List ℕ} {m : ℕ} (h : ∀ x ∈ l, x ≤ m) : l.foldr max 0 ≤ m := by
  induction l with
  | nil => exact Nat.zero_le m
  | cons a t ih =>
    simp only [List.foldr_cons]
    have h1 := h a (by simp)
    have h2 := ih (fun x hx => h x (by simp [hx]))
    omega

theorem le_foldr_max {l : List ℕ} {x : ℕ} (hx : x ∈ l) : x ≤ l.foldr max 0 := by
  induction l with
  | nil => simp at hx
  | cons a t ih =>
    simp only [List.foldr_cons]
    rcases List.mem_cons.mp hx with rfl | h
    · omega
    · have := ih h; omega

theorem foldr_max_perm {l m : List ℕ} (h : List.Perm l m) :
    l.foldr max 0 = m.foldr max 0 := by
  induction h with
  | nil => rfl
  | cons a _ ih => simp [ih]
  | swap a b t => simp only [List.foldr_cons]; omega
  | trans _ _ ih1 ih2 => omega

theorem foldr_max_eq_headD {l : List ℕ} (hs : l.Pairwise (· ≥ ·)) :
    l.foldr max 0 = l.headD 0 := by
  induction l with
  | nil => rfl
  | cons a t ih =>
    have ht : t.Pairwise (· ≥ ·) := (List.pairwise_cons.mp hs).2
    have hh : ∀ x ∈ t, x ≤ a := (List.pairwise_cons.mp hs).1
    simp only [List.foldr_cons, List.headD_cons]
    have := ih ht
    cases t with
    | nil => simp
    | cons b u =>
      have hb : b ≤ a := hh b (by simp)
      simp only [List.headD_cons] at this
      omega

theorem headD_eq_getD_zero {α : Type} (l : List α) (d : α) : l.headD d = l.getD 0 d := by
  cases l <;> simp

/-- The sorted lengths of a mini-batch are a permutation of the gathered
lengths. -/
theorem sortedSeqLengths_perm (sl : List ℕ) (idx : List ℕ) :
    List.Perm (sortedSeqLengths sl idx) (batchLengths sl idx) :=
  gather_argsortDesc_perm (batchLengths sl idx)

/-- The sorted lengths of a mini-batch are non-increasing. -/
theorem sortedSeqLengths_pairwise (sl : List ℕ) (idx : List ℕ) :
    (sortedSeqLengths sl idx).Pairwise (· ≥ ·) :=
  gather_argsortDesc_pairwise (batchLengths sl idx)

@[simp] theorem batchLengths_length (sl : List ℕ) (idx : List ℕ) :
    (batchLengths sl idx).length = idx.length := by
  simp [batchLengths]

@[simp] theorem sortedSeqLengths_length (sl : List ℕ) (idx : List ℕ) :
    (sortedSeqLengths sl idx).length = idx.length := by
  simp [sortedSeqLengths, sortedBatchIdx]

@[simp] theorem sortedMBI_length (sl : List ℕ) (idx : List ℕ) :
    (sortedMBI sl idx).length = idx.length := by
  simp [sortedMBI, sortedBatchIdx]

/-- The first sorted length is the batch maximum `T_max`. -/
theorem sortedSeqLengths_headD (sl : List ℕ) (idx : List ℕ) :
    (sortedSeqLengths sl idx).headD 0 = tMax sl idx := by
  have h1 := foldr_max_eq_headD (sortedSeqLengths_pairwise sl idx)
  have h2 := foldr_max_perm (sortedSeqLengths_perm sl idx)
  simp only [tMax]
  omega

theorem sortedSeqLengths_le_tMax (sl : List ℕ) (idx : List ℕ) :
    ∀ v ∈ sortedSeqLengths sl idx, v ≤ tMax sl idx := by
  intro v hv
  have : v ∈ batchLengths sl idx := (sortedSeqLengths_perm sl idx).mem_iff.mp hv
  exact le_foldr_max this

theorem sortedBatchIdx_getD_lt (sl : List ℕ) (idx : List ℕ) {b : ℕ}
    (hb : b < idx.length) : (sortedBatchIdx sl idx).getD b 0 < idx.length := by
  have hlen : b < (sortedBatchIdx sl idx).length := by
    simp [sortedBatchIdx, hb]
  have hmem : (sortedBatchIdx sl idx).getD b 0 ∈ sortedBatchIdx sl idx := by
    rw [getD_eq_getElem _ _ hlen]
    exact List.getElem_mem hlen
  have := argsortDesc_mem hmem
  simpa using this

/-- Row `b` of `sorted_mini_batch_indices` is a member of `mini_batch_indices`. -/
theorem sortedMBI_getD_mem (sl : List ℕ) (idx : List ℕ) {b : ℕ}
    (hb : b < idx.length) : (sortedMBI sl idx).getD b 0 ∈ idx := by
  have h1 : (sortedMBI sl idx).getD b 0 =
      idx.getD ((sortedBatchIdx sl idx).getD b 0) 0 := by
    simp only [sortedMBI]
    exact gather_getD idx 0 _ (by simp [sortedBatchIdx, hb])
  rw [h1, getD_eq_getElem idx 0 (sortedBatchIdx_getD_lt sl idx hb)]
  exact List.getElem_mem _

/-- The sorted length of row `b` is the declared length of the example that
`sorted_mini_batch_indices` puts at row `b`. -/
theorem sortedSeqLengths_getD (sl : List ℕ) (idx : List ℕ) {b : ℕ}
    (hb : b < idx.length) :
    (sortedSeqLengths sl idx).getD b 0 = sl.getD ((sortedMBI sl idx).getD b 0) 0 := by
  have hlt := sortedBatchIdx_getD_lt sl idx hb
  have h1 : (sortedSeqLengths sl idx).getD b 0 =
      (batchLengths sl idx).getD ((sortedBatchIdx sl idx).getD b 0) 0 := by
    simp only [sortedSeqLengths]
    exact gather_getD _ 0 _ (by simp [sortedBatchIdx, hb])
  have h2 : (batchLengths sl idx).getD ((sortedBatchIdx sl idx).getD b 0) 0 =
      sl.getD (idx.getD ((sortedBatchIdx sl idx).getD b 0) 0) 0 := by
    simp only [batchLengths]
    exact gather_getD sl 0 idx hlt
  have h3 : (sortedMBI sl idx).getD b 0 =
      idx.getD ((sortedBatchIdx sl idx).getD b 0) 0 := by
    simp only [sortedMBI]
    exact gather_getD idx 0 _ (by simp [sortedBatchIdx, hb])
  rw [h1, h2, h3]

/-- Row `b` of the sorted lengths is at most `T_max`. -/
theorem sortedSeqLengths_getD_le (sl : List ℕ) (idx : List ℕ) {b : ℕ}
    (hb : b < idx.length) : (sortedSeqLengths sl idx).getD b 0 ≤ tMax sl idx := by
  have hlen : b < (sortedSeqLengths sl idx).length := by simp [hb]
  refine sortedSeqLengths_le_tMax sl idx _ ?_
  rw [getD_eq_getElem _ _ hlen]
  exact List.getElem_mem hlen

/-! ### Lemmas about padding -/

/-- The specification-side description of one padded row: the stored sequence
truncated to `t` time steps and right-padded with zero rows of width `d` up to
exactly `t` rows. -/
def padRows (t d : ℕ) (s : List (List ℤ)) : List (List ℤ) :=
  s.take t ++ List.replicate (t - (s.take t).length) (List.replicate d 0)

theorem getD_append_left {α : Type} (l l' : List α) (d : α) {n : ℕ} (h : n < l.length) :
    (l ++ l').getD n d = l.getD n d := by
  simp [List.getD_eq_getElem?_getD, List.getElem?_append, h]

theorem getD_append_right {α : Type} (l l' : List α) (d : α) (k : ℕ) :
    (l ++ l').getD (l.length + k) d = l'.getD k d := by
  simp [List.getD_eq_getElem?_getD, List.getElem?_append_right (Nat.le_add_right l.length k)]

theorem getD_take {α : Type} (s : List α) (d : α) {n t : ℕ} (h : n < t) :
    (s.take t).getD n d = s.getD n d := by
  simp [List.getD_eq_getElem?_getD, List.getElem?_take_of_lt h]

@[simp] theorem pad_sequence_length (seqs : List (List (List ℤ))) :
    (pad_sequence seqs).length = seqs.length := by
  simp [pad_sequence]

@[simp] theorem truncSeqs_length (t : ℕ) (seqs : List (List (List ℤ))) :
    (truncSeqs t seqs).length = seqs.length := by
  simp [truncSeqs]

theorem pad_sequence_getD (seqs : List (List (List ℤ))) {b : ℕ} (hb : b < seqs.length) :
    (pad_sequence seqs).getD b [] =
      seqs.getD b [] ++ List.replicate
        ((seqs.map List.length).foldr max 0 - (seqs.getD b []).length)
        (List.replicate (rowDim seqs) 0) := by
  simp only [pad_sequence]
  rw [getD_eq_getElem _ _ (by simpa using hb)]
  simp only [List.getElem_map]
  rw [getD_eq_getElem seqs [] hb]

theorem pad_sequence_row_length (seqs : List (List (List ℤ))) :
    ∀ r ∈ pad_sequence seqs, r.length = (seqs.map List.length).foldr max 0 := by
  intro r hr
  simp only [pad_sequence, List.mem_map] at hr
  obtain ⟨s, hs, rfl⟩ := hr
  have hle : s.length ≤ (seqs.map List.length).foldr max 0 :=
    le_foldr_max (List.mem_map_of_mem List.length hs)
  simp only [List.length_append, List.length_replicate]
  omega

theorem truncSeqs_getD (t : ℕ) (seqs : List (List (List ℤ))) (b : ℕ) :
    (truncSeqs t seqs).getD b [] = (seqs.getD b []).take t := by
  by_cases hb : b < seqs.length
  · simp only [truncSeqs]
    rw [getD_eq_getElem _ _ (by simpa using hb), getD_eq_getElem seqs [] hb]
    simp
  · have h1 : seqs.length ≤ b := Nat.le_of_not_lt hb
    rw [getD_eq_default _ _ (by simpa using h1), getD_eq_default seqs [] h1]
    simp

/-- The common time dimension of `pad_sequence (truncSeqs T (gather A [] J))`
is exactly `T`, provided `T = 0` or the first selected sequence stores at
least `T` rows. -/
theorem pad_truncSeqs_fold (A : List (List (List ℤ))) (J : List ℕ) (T : ℕ)
    (hfull : T = 0 ∨ (J ≠ [] ∧ T ≤ (A.getD (J.getD 0 0) []).length)) :
    (((truncSeqs T (gather A [] J)).map List.length).foldr max 0) = T := by
  have hle : (((truncSeqs T (gather A [] J)).map List.length).foldr max 0) ≤ T := by
    refine foldr_max_le ?_
    intro x hx
    simp only [truncSeqs, gather, List.map_map, List.mem_map] at hx
    obtain ⟨j, _, rfl⟩ := hx
    simp
  rcases hfull with rfl | ⟨hne, hsto⟩
  · omega
  · have hlen : 0 < J.length := List.length_pos.mpr hne
    have hlt : 0 < ((truncSeqs T (gather A [] J)).map List.length).length := by
      simpa using hlen
    have hlt2 : 0 < (truncSeqs T (gather A [] J)).length := by simpa using hlen
    have h0 : ((truncSeqs T (gather A [] J)).map List.length)[0] = T := by
      simp only [List.getElem_map]
      have he : (truncSeqs T (gather A [] J))[0] =
          (A.getD (J.getD 0 0) []).take T := by
        rw [← getD_eq_getElem _ ([] : List (List ℤ)) (by simpa using hlen)]
        rw [truncSeqs_getD, gather_getD A [] J hlen]
      rw [he]
      simp only [List.length_take]
      omega
    have hmem : T ∈ (truncSeqs T (gather A [] J)).map List.length :=
      List.mem_iff_getElem.mpr ⟨0, hlt, h0⟩
    exact Nat.le_antisymm hle (le_foldr_max hmem)

/-- The inner padding dimension of `pad_sequence (truncSeqs T (gather A [] J))`
is the common feature width `D`, provided `T > 0`. -/
theorem pad_truncSeqs_rowDim (A : List (List (List ℤ))) (J : List ℕ) (T D : ℕ)
    (hT : 0 < T) (hne : J ≠ []) (hsto : T ≤ (A.getD (J.getD 0 0) []).length)
    (hdim : ∀ j ∈ J, ∀ r ∈ A.getD j [], r.length = D) :
    rowDim (truncSeqs T (gather A [] J)) = D := by
  have hlen : 0 < J.length := List.length_pos.mpr hne
  have hhead : (truncSeqs T (gather A [] J)).headD [] =
      (A.getD (J.getD 0 0) []).take T := by
    rw [headD_eq_getD_zero, truncSeqs_getD, gather_getD A [] J hlen]
  have hs : 0 < (A.getD (J.getD 0 0) []).length := by omega
  have hrow : ((A.getD (J.getD 0 0) []).take T).headD [] =
      (A.getD (J.getD 0 0) []).getD 0 [] := by
    rw [headD_eq_getD_zero, getD_take _ _ hT]
  have hmem : (A.getD (J.getD 0 0) []).getD 0 [] ∈ A.getD (J.getD 0 0) [] := by
    rw [getD_eq_getElem _ _ hs]
    exact List.getElem_mem hs
  have hJ0 : J.getD 0 0 ∈ J := by
    rw [getD_eq_getElem J 0 hlen]
    exact List.getElem_mem hlen
  simp only [rowDim, hhead, hrow]
  exact hdim _ hJ0 _ hmem

/-- Row `b` of `pad_sequence (truncSeqs T (gather A [] J))` is `A[J[b]]`
truncated to `T` rows and zero-padded to exactly `T` rows of width `D`. -/
theorem pad_truncSeqs_getD (A : List (List (List ℤ))) (J : List ℕ) (T D : ℕ)
    (hfull : T = 0 ∨ (J ≠ [] ∧ T ≤ (A.getD (J.getD 0 0) []).length))
    (hdim : ∀ j ∈ J, ∀ r ∈ A.getD j [], r.length = D)
    {b : ℕ} (hb : b < J.length) :
    (pad_sequence (truncSeqs T (gather A [] J))).getD b [] =
      padRows T D (A.getD (J.getD b 0) []) := by
  have hblen : b < (truncSeqs T (gather A [] J)).length := by simpa using hb
  rw [pad_sequence_getD _ hblen, pad_truncSeqs_fold A J T hfull,
    truncSeqs_getD, gather_getD A [] J hb]
  rcases hfull with rfl | ⟨hne, hsto⟩
  · simp [padRows]
  · by_cases hT : 0 < T
    · rw [pad_truncSeqs_rowDim A J T D hT hne hsto hdim]
      rfl
    · have : T = 0 := by omega
      subst this
      simp [padRows]

/-- Every row of `pad_sequence (truncSeqs T (gather A [] J))` has exactly `T`
time steps. -/
theorem pad_truncSeqs_row_length (A : List (List (List ℤ))) (J : List ℕ) (T : ℕ)
    (hfull : T = 0 ∨ (J ≠ [] ∧ T ≤ (A.getD (J.getD 0 0) []).length)) :
    ∀ r ∈ pad_sequence (truncSeqs T (gather A [] J)), r.length = T := by
  intro r hr
  rw [pad_sequence_row_length _ r hr, pad_truncSeqs_fold A J T hfull]

/-- Every entry of `pad_sequence (truncSeqs T (gather A [] J))` has feature
width `D`. -/
theorem pad_truncSeqs_width (A : List (List (List ℤ))) (J : List ℕ) (T D : ℕ)
    (hfull : T = 0 ∨ (J ≠ [] ∧ T ≤ (A.getD (J.getD 0 0) []).length))
    (hdim : ∀ j ∈ J, ∀ r ∈ A.getD j [], r.length = D) :
    ∀ r ∈ pad_sequence (truncSeqs T (gather A [] J)), ∀ e ∈ r, e.length = D := by
  intro r hr e he
  simp only [pad_sequence, List.mem_map] at hr
  obtain ⟨s, hs, rfl⟩ := hr
  simp only [truncSeqs, gather, List.map_map, List.mem_map] at hs
  obtain ⟨j, hj, rfl⟩ := hs
  rcases List.mem_append.mp he with h | h
  · exact hdim j hj e (List.mem_of_mem_take h)
  · obtain ⟨hcount, rfl⟩ := List.mem_replicate.mp h
    simp only [List.length_replicate]
    have hfold := pad_truncSeqs_fold A J T hfull
    have hT : 0 < T := by omega
    rcases hfull with h0 | ⟨hne, hsto⟩
    · omega
    · exact pad_truncSeqs_rowDim A J T D hT hne hsto hdim

/-! ### Lemmas about `reverse_sequences` and `get_mini_batch_mask` -/

theorem zeroRow_eq (r : List ℤ) : zeroRow r = List.replicate r.length 0 := by
  induction r with
  | nil => rfl
  | cons a t ih =>
    simp only [zeroRow, List.map_cons, List.length_cons, List.replicate_succ] at ih ⊢
    rw [ih]

@[simp] theorem zeroRow_length (r : List ℤ) : (zeroRow r).length = r.length := by
  simp [zeroRow]

@[simp] theorem reverse_sequences_length (x : List (List (List ℤ))) (L : List ℕ) :
    (reverse_sequences x L).length = min x.length L.length := by
  simp [reverse_sequences]

theorem reverse_sequences_getD (x : List (List (List ℤ))) (L : List ℕ) {b : ℕ}
    (hbx : b < x.length) (hbL : b < L.length) :
    (reverse_sequences x L).getD b [] =
      (List.range (x.getD b []).length).map (fun t =>
        if t < L.getD b 0 then (x.getD b []).getD (L.getD b 0 - 1 - t) []
        else zeroRow ((x.getD b []).getD t [])) := by
  have hz : b < (x.zip L).length := by
    rw [List.length_zip]; omega
  have h1 : (reverse_sequences x L).getD b [] =
      (List.range (((x.zip L)[b]).1.length)).map (fun t =>
        if t < ((x.zip L)[b]).2 then ((x.zip L)[b]).1.getD (((x.zip L)[b]).2 - 1 - t) []
        else zeroRow (((x.zip L)[b]).1.getD t [])) := by
    rw [reverse_sequences, getD_eq_getElem _ _ (by simpa using hz)]
    simp
  rw [h1]
  have h2 : (x.zip L)[b] = (x[b], L[b]) := List.getElem_zip
  rw [h2, getD_eq_getElem x [] hbx, getD_eq_getElem L 0 hbL]

theorem reverse_sequences_row_length (x : List (List (List ℤ))) (L : List ℕ) {b : ℕ}
    (hbx : b < x.length) (hbL : b < L.length) :
    ((reverse_sequences x L).getD b []).length = (x.getD b []).length := by
  rw [reverse_sequences_getD x L hbx hbL]
  simp

theorem reverse_sequences_entry (x : List (List (List ℤ))) (L : List ℕ) {b : ℕ}
    (hbx : b < x.length) (hbL : b < L.length) {t : ℕ} (ht : t < (x.getD b []).length) :
    ((reverse_sequences x L).getD b []).getD t [] =
      if t < L.getD b 0 then (x.getD b []).getD (L.getD b 0 - 1 - t) []
      else zeroRow ((x.getD b []).getD t []) := by
  rw [reverse_sequences_getD x L hbx hbL, getD_map_range _ _ ht]

@[simp] theorem get_mini_batch_mask_length (x : List (List (List ℤ))) (L : List ℕ) :
    (get_mini_batch_mask x L).length = min x.length L.length := by
  simp [get_mini_batch_mask]

theorem get_mini_batch_mask_getD (x : List (List (List ℤ))) (L : List ℕ) {b : ℕ}
    (hbx : b < x.length) (hbL : b < L.length) :
    (get_mini_batch_mask x L).getD b [] =
      (List.range (x.getD b []).length).map
        (fun t => if t < L.getD b 0 then (1 : ℤ) else 0) := by
  have hz : b < (x.zip L).length := by
    rw [List.length_zip]; omega
  have h1 : (get_mini_batch_mask x L).getD b [] =
      (List.range (((x.zip L)[b]).1.length)).map (fun t =>
        if t < ((x.zip L)[b]).2 then (1 : ℤ) else 0) := by
    rw [get_mini_batch_mask, getD_eq_getElem _ _ (by simpa using hz)]
    simp
  rw [h1]
  have h2 : (x.zip L)[b] = (x[b], L[b]) := List.getElem_zip
  rw [h2, getD_eq_getElem x [] hbx, getD_eq_getElem L 0 hbL]

/-! ### Claim C3 -/

/-- C3: for every padded batch `seq` of shape (B, T, D) and every lengths
vector with `0 ≤ L_b ≤ T` for each row, `reverse_sequences seq lengths`
returns an array of the same shape in which, for each row `b`, positions
`t < L_b` hold `seq[b, L_b-1-t]` and positions `t ≥ L_b` hold the zero row,
regardless of what `seq` contained there. -/
theorem C3_reverse_sequences_correct (seq : List (List (List ℤ))) (lengths : List ℕ)
    (B T D : ℕ) (hB : seq.length = B) (hL : lengths.length = B)
    (hrow : ∀ s ∈ seq, s.length = T)
    (hdim : ∀ s ∈ seq, ∀ r ∈ s, r.length = D)
    (hbound : ∀ b, b < B → lengths.getD b 0 ≤ T) :
    (reverse_sequences seq lengths).length = B ∧
    (∀ r ∈ reverse_sequences seq lengths, r.length = T) ∧
    (∀ b, b < B → ∀ t, t < T →
      ((t < lengths.getD b 0 →
        ((reverse_sequences seq lengths).getD b []).getD t [] =
          (seq.getD b []).getD (lengths.getD b 0 - 1 - t) []) ∧
       (lengths.getD b 0 ≤ t →
        ((reverse_sequences seq lengths).getD b []).getD t [] = List.replicate D 0))) := by
  refine ⟨by simp [hB, hL], ?_, ?_⟩
  · intro r hr
    simp only [reverse_sequences, List.mem_map] at hr
    obtain ⟨p, hp, rfl⟩ := hr
    have hmem := List.of_mem_zip hp
    simp only [List.length_map, List.length_range]
    exact hrow p.1 hmem.1
  · intro b hb t ht
    have hbx : b < seq.length := by omega
    have hbL : b < lengths.length := by omega
    have hsb : seq.getD b [] ∈ seq := by
      rw [getD_eq_getElem seq [] hbx]
      exact List.getElem_mem hbx
    have hrlen : (seq.getD b []).length = T := hrow _ hsb
    have ht' : t < (seq.getD b []).length := by omega
    constructor
    · intro hlt
      rw [reverse_sequences_entry seq lengths hbx hbL ht']
      rw [if_pos hlt]
    · intro hge
      rw [reverse_sequences_entry seq lengths hbx hbL ht']
      rw [if_neg (by omega)]
      have hmem2 : (seq.getD b []).getD t [] ∈ seq.getD b [] := by
        rw [getD_eq_getElem _ [] ht']
        exact List.getElem_mem ht'
      rw [zeroRow_eq, hdim _ hsb _ hmem2]

/-- Witness for C3 at a concrete input: batch of two rows with lengths
`[2, 1]`; row 0 position 1 holds the reversed entry, row 1 position 1 holds
the zero row. -/
theorem C3_reverse_sequences_correct_witness :
    ((reverse_sequences [[[1], [2]], [[3], [4]]] [2, 1]).getD 0 []).getD 1 [] = [1] ∧
    ((reverse_sequences [[[1], [2]], [[3], [4]]] [2, 1]).getD 1 []).getD 1 [] = [0] := by
  have h := C3_reverse_sequences_correct [[[1], [2]], [[3], [4]]] [2, 1] 2 2 1
    (by decide) (by decide) (by decide) (by decide) (by decide)
  exact ⟨((h.2.2 0 (by decide) 1 (by decide)).1 (by decide)).trans (by decide),
         ((h.2.2 1 (by decide) 1 (by decide)).2 (by decide)).trans (by decide)⟩

/-! ### Claim C5 -/

/-- C5: for every mini-batch of shape (B, T_max, ...) and every lengths vector
with entries in `[0, T_max]`, `get_mini_batch_mask` returns a (B, T_max) array
with `mask[b,t] = 1` iff `t < sorted_seq_lengths[b]`, and `mask[b,t] = 0` for
all `t ≥ sorted_seq_lengths[b]`. -/
theorem C5_mask_correct (mini_batch : List (List (List ℤ))) (lengths : List ℕ)
    (B T : ℕ) (hB : mini_batch.length = B) (hL : lengths.length = B)
    (hrow : ∀ s ∈ mini_batch, s.length = T)
    (hbound : ∀ b, b < B → lengths.getD b 0 ≤ T) :
    (get_mini_batch_mask mini_batch lengths).length = B ∧
    (∀ r ∈ get_mini_batch_mask mini_batch lengths, r.length = T) ∧
    (∀ b, b < B → ∀ t, t < T →
      ((((get_mini_batch_mask mini_batch lengths).getD b []).getD t 0 = 1 ↔
        t < lengths.getD b 0) ∧
       (lengths.getD b 0 ≤ t →
        ((get_mini_batch_mask mini_batch lengths).getD b []).getD t 0 = 0))) := by
  refine ⟨by simp [hB, hL], ?_, ?_⟩
  · intro r hr
    simp only [get_mini_batch_mask, List.mem_map] at hr
    obtain ⟨p, hp, rfl⟩ := hr
    have hmem := List.of_mem_zip hp
    simp only [List.length_map, List.length_range]
    exact hrow p.1 hmem.1
  · intro b hb t ht
    have hbx : b < mini_batch.length := by omega
    have hbL : b < lengths.length := by omega
    have hsb : mini_batch.getD b [] ∈ mini_batch := by
      rw [getD_eq_getElem mini_batch [] hbx]
      exact List.getElem_mem hbx
    have hrlen : (mini_batch.getD b []).length = T := hrow _ hsb
    have ht' : t < (mini_batch.getD b []).length := by omega
    have hentry : ((get_mini_batch_mask mini_batch lengths).getD b []).getD t 0 =
        if t < lengths.getD b 0 then (1 : ℤ) else 0 := by
      rw [get_mini_batch_mask_getD mini_batch lengths hbx hbL, getD_map_range _ _ ht']
    constructor
    · rw [hentry]
      by_cases hc : t < lengths.getD b 0
      · simp [hc]
      · simp [hc]
    · intro hge
      rw [hentry, if_neg (by omega)]

/-- Witness for C5 at a concrete input: one row of length 2 inside a
3-step batch; the mask is 1 at `t = 1 < 2` and 0 at `t = 2`. -/
theorem C5_mask_correct_witness :
    ((((get_mini_batch_mask [[[5], [6], [7]]] [2]).getD 0 []).getD 1 0 = 1 ↔ (1 : ℕ) < 2) ∧
     (((get_mini_batch_mask [[[5], [6], [7]]] [2]).getD 0 []).getD 2 0 = 0)) := by
  have h := C5_mask_correct [[[5], [6], [7]]] [2] 1 3 (by decide) (by decide)
    (by decide) (by decide)
  exact ⟨(h.2.2 0 (by decide) 1 (by decide)).1,
         (h.2.2 0 (by decide) 2 (by decide)).2 (by decide)⟩

/-! ### Lemmas about packing -/

theorem range_flatMap_succ {α : Type} (f : ℕ → List α) (n : ℕ) :
    (List.range (n + 1)).flatMap f = f 0 ++ (List.range n).flatMap (fun k => f (k + 1)) := by
  rw [List.range_succ_eq_map, List.flatMap_cons, List.flatMap_map]

theorem getD_flatMap_range {α : Type} (f : ℕ → List α) (d : α) :
    ∀ {t n b : ℕ}, t < n → b < (f t).length →
      ((List.range n).flatMap f).getD
        ((((List.range t).map (fun s => (f s).length)).sum) + b) d = (f t).getD b d := by
  intro t
  induction t generalizing f with
  | zero =>
    intro n b ht hb
    obtain ⟨m, rfl⟩ := Nat.exists_eq_succ_of_ne_zero (Nat.pos_iff_ne_zero.mp ht)
    rw [range_flatMap_succ]
    simp only [List.range_zero, List.map_nil, List.sum_nil, Nat.zero_add]
    exact getD_append_left _ _ d hb
  | succ t ih =>
    intro n b ht hb
    obtain ⟨m, rfl⟩ := Nat.exists_eq_succ_of_ne_zero (by omega : n ≠ 0)
    rw [range_flatMap_succ]
    have hsum : ((List.range (t + 1)).map (fun s => (f s).length)).sum =
        (f 0).length + ((List.range t).map (fun s => (f (s + 1)).length)).sum := by
      rw [List.range_succ_eq_map, List.map_cons, List.sum_cons, List.map_map]
      rfl
    rw [hsum, Nat.add_assoc, getD_append_right]
    exact ih (fun k => f (k + 1)) (by omega) hb

theorem filter_eq_take_of_pairwise {α : Type} (t : ℕ) :
    ∀ (m : List (α × ℕ)), m.Pairwise (fun a b => b.2 ≤ a.2) →
      m.filter (fun p => decide (t < p.2)) =
        m.take (m.countP (fun p => decide (t < p.2))) := by
  intro m
  induction m with
  | nil => intro _; rfl
  | cons a rest ih =>
    intro hp
    have hrest := (List.pairwise_cons.mp hp).2
    have hhead := (List.pairwise_cons.mp hp).1
    by_cases hc : t < a.2
    · rw [List.filter_cons_of_pos (by simpa using hc),
        List.countP_cons_of_pos _ _ (by simpa using hc)]
      rw [List.take_succ_cons, ih hrest]
    · have hnone : ∀ b ∈ rest, ¬ t < b.2 := fun b hb => by
        have := hhead b hb
        omega
      have hfilter : rest.filter (fun p => decide (t < p.2)) = [] := by
        rw [List.filter_eq_nil_iff]
        intro b hb
        simpa using hnone b hb
      have hcount : rest.countP (fun p => decide (t < p.2)) = 0 := by
        rw [List.countP_eq_zero]
        intro b hb
        simpa using hnone b hb
      rw [List.filter_cons_of_neg (by simpa using hc),
        List.countP_cons_of_neg _ _ (by simpa using hc), hfilter, hcount]
      rfl

theorem lt_countP_iff {t : ℕ} :
    ∀ {L : List ℕ}, L.Pairwise (· ≥ ·) → ∀ {b : ℕ}, b < L.length →
      (b < L.countP (fun v => decide (t < v)) ↔ t < L.getD b 0) := by
  intro L
  induction L with
  | nil => intro _ b hb; simp at hb
  | cons a rest ih =>
    intro hp b hb
    have hrest := (List.pairwise_cons.mp hp).2
    have hhead := (List.pairwise_cons.mp hp).1
    cases b with
    | zero =>
      by_cases hc : t < a
      · rw [List.countP_cons_of_pos _ _ (by simpa using hc)]
        simp [hc]
      · rw [List.countP_cons_of_neg _ _ (by simpa using hc)]
        have hcount : rest.countP (fun v => decide (t < v)) = 0 := by
          rw [List.countP_eq_zero]
          intro v hv
          have := hhead v hv
          simp only [decide_eq_true_eq]
          omega
        simp [hcount, hc]
    | succ b =>
      have hb' : b < rest.length := by simpa using hb
      by_cases hc : t < a
      · rw [List.countP_cons_of_pos _ _ (by simpa using hc)]
        have := ih hrest hb'
        simp only [List.getD_cons_succ]
        omega
      · rw [List.countP_cons_of_neg _ _ (by simpa using hc)]
        have hcount : rest.countP (fun v => decide (t < v)) = 0 := by
          rw [List.countP_eq_zero]
          intro v hv
          have := hhead v hv
          simp only [decide_eq_true_eq]
          omega
        have hval : ¬ t < rest.getD b 0 := by
          by_cases hbl : b < rest.length
          · have hmem : rest.getD b 0 ∈ rest := by
              rw [getD_eq_getElem rest 0 hbl]
              exact List.getElem_mem hbl
            have := hhead _ hmem
            omega
          · omega
        simp only [List.getD_cons_succ]
        omega

theorem zip_pairwise_snd {x : List (List (List ℤ))} {L : List ℕ}
    (hL : L.Pairwise (· ≥ ·)) : (x.zip L).Pairwise (fun a b => b.2 ≤ a.2) := by
  rw [List.pairwise_iff_getElem] at hL ⊢
  intro i j hi hj hij
  have hiL : i < L.length := by
    rw [List.length_zip] at hi
    omega
  have hjL : j < L.length := by
    rw [List.length_zip] at hj
    omega
  have hix : i < x.length := by
    rw [List.length_zip] at hi
    omega
  have hjx : j < x.length := by
    rw [List.length_zip] at hj
    omega
  have h1 : (x.zip L)[i] = (x[i], L[i]) := List.getElem_zip
  have h2 : (x.zip L)[j] = (x[j], L[j]) := List.getElem_zip
  rw [h1, h2]
  exact hL i j hiL hjL hij

theorem countP_zip_snd {x : List (List (List ℤ))} {L : List ℕ} (t : ℕ)
    (hlen : L.length ≤ x.length) :
    (x.zip L).countP (fun p => decide (t < p.2)) = L.countP (fun v => decide (t < v)) := by
  have h1 : (x.zip L).map Prod.snd = L := List.map_snd_zip x L hlen
  calc (x.zip L).countP (fun p => decide (t < p.2))
      = ((x.zip L).map Prod.snd).countP (fun v => decide (t < v)) := by
        rw [List.countP_map]
        rfl
    _ = L.countP (fun v => decide (t < v)) := by rw [h1]

/-- One time-step column of the packed data. -/
def packCol (x : List (List (List ℤ))) (L : List ℕ) (t : ℕ) : List (List ℤ) :=
  ((x.zip L).filter (fun p => decide (t < p.2))).map (fun p => p.1.getD t [])

theorem packData_eq_flatMap (x : List (List (List ℤ))) (L : List ℕ) :
    packData x L = (List.range (L.foldr max 0)).flatMap (packCol x L) := rfl

theorem headD_append_left {α : Type} (l l' : List α) (d : α) (h : 0 < l.length) :
    (l ++ l').headD d = l.headD d := by
  rw [headD_eq_getD_zero, headD_eq_getD_zero]
  exact getD_append_left l l' d h

theorem packCol_length {x : List (List (List ℤ))} {L : List ℕ}
    (hLx : L.length = x.length) (hsort : L.Pairwise (· ≥ ·)) (t : ℕ) :
    (packCol x L t).length = L.countP (fun v => decide (t < v)) := by
  have hzlen : (x.zip L).length = L.length := by
    rw [List.length_zip]
    omega
  rw [packCol, filter_eq_take_of_pairwise t _ (zip_pairwise_snd hsort),
    countP_zip_snd t (by omega)]
  simp only [List.length_map, List.length_take, hzlen]
  have := @List.countP_le_length _ (fun v => decide (t < v)) L
  omega

theorem packCol_getD {x : List (List (List ℤ))} {L : List ℕ}
    (hLx : L.length = x.length) (hsort : L.Pairwise (· ≥ ·)) {t b : ℕ}
    (hb : b < L.countP (fun v => decide (t < v))) :
    (packCol x L t).getD b [] = (x.getD b []).getD t [] := by
  have hcle : L.countP (fun v => decide (t < v)) ≤ L.length :=
    @List.countP_le_length _ (fun v => decide (t < v)) L
  have hbx : b < x.length := by omega
  have hbL : b < L.length := by omega
  have hzlen : (x.zip L).length = L.length := by
    rw [List.length_zip]
    omega
  have hlen : b < (packCol x L t).length := by
    rw [packCol_length hLx hsort]
    exact hb
  rw [getD_eq_getElem _ _ hlen]
  have hrepr : packCol x L t =
      ((x.zip L).take (L.countP (fun v => decide (t < v)))).map
        (fun p => p.1.getD t []) := by
    rw [packCol, filter_eq_take_of_pairwise t _ (zip_pairwise_snd hsort),
      countP_zip_snd t (by omega)]
  have hlen2 : b < (((x.zip L).take (L.countP (fun v => decide (t < v)))).map
      (fun p => p.1.getD t [])).length := by
    rw [← hrepr]
    exact hlen
  have : (packCol x L t)[b] = (((x.zip L).take (L.countP (fun v => decide (t < v)))).map
      (fun p => p.1.getD t []))[b] := by
    congr 1
  rw [this]
  simp only [List.getElem_map, List.getElem_take]
  have hbz : b < (x.zip L).length := by omega
  have hzb : (x.zip L)[b] = (x[b], L[b]) := List.getElem_zip
  rw [hzb, getD_eq_getElem x [] hbx]

/-- Unpacking a packed dense batch recovers the batch exactly: the round trip
`pad_packed_sequence ∘ pack` is the identity on well-formed sorted zero-padded
batches whose maximal length equals the time dimension. -/
theorem pad_packed_pack (x : List (List (List ℤ))) (L : List ℕ) (B T D : ℕ)
    (hLx : L.length = x.length) (hxB : x.length = B) (hB : 0 < B)
    (hrow : ∀ r ∈ x, r.length = T)
    (hdim : ∀ r ∈ x, ∀ e ∈ r, e.length = D)
    (hpos : ∀ v ∈ L, 0 < v)
    (hsort : L.Pairwise (· ≥ ·))
    (hmax : L.headD 0 = T)
    (hzero : ∀ b, b < B → ∀ t, t < T → L.getD b 0 ≤ t →
      (x.getD b []).getD t [] = List.replicate D 0) :
    pad_packed_sequence ⟨packData x L, packBatchSizes L⟩ = x := by
  have hLB : L.length = B := by omega
  have hTfold : L.foldr max 0 = T := (foldr_max_eq_headD hsort).trans hmax
  have hLpos : 0 < L.length := by omega
  have hT : 0 < T := by
    have hmem : L.headD 0 ∈ L := by
      rw [headD_eq_getD_zero, getD_eq_getElem L 0 hLpos]
      exact List.getElem_mem hLpos
    have := hpos _ hmem
    omega
  have hbs_len : (packBatchSizes L).length = T := by
    simp [packBatchSizes, hTfold]
  have hbs_getD : ∀ t, t < T → (packBatchSizes L).getD t 0 =
      L.countP (fun v => decide (t < v)) := by
    intro t ht
    rw [packBatchSizes, hTfold, getD_map_range _ _ ht, List.countP_eq_length_filter]
  have hc0 : L.countP (fun v => decide (0 < v)) = B := by
    have h1 : L.countP (fun v => decide (0 < v)) = L.length := by
      rw [List.countP_eq_length]
      intro v hv
      simpa using hpos v hv
    omega
  have hhead_bs : (packBatchSizes L).headD 0 = B := by
    rw [headD_eq_getD_zero, hbs_getD 0 hT, hc0]
  have hc_le : ∀ t, L.countP (fun v => decide (t < v)) ≤ B := by
    intro t
    have := @List.countP_le_length _ (fun v => decide (t < v)) L
    omega
  have hgal : ∀ b, b < B → ∀ t, (b < L.countP (fun v => decide (t < v)) ↔
      t < L.getD b 0) := by
    intro b hb t
    exact lt_countP_iff hsort (by omega)
  have hx0 : x.getD 0 [] ∈ x := by
    rw [getD_eq_getElem x [] (by omega)]
    exact List.getElem_mem (by omega)
  have hdata_head : ((packData x L).headD []).length = D := by
    obtain ⟨m, hm⟩ := Nat.exists_eq_succ_of_ne_zero (by omega : T ≠ 0)
    have h1 : packData x L = packCol x L 0 ++ (List.range m).flatMap
        (fun k => packCol x L (k + 1)) := by
      rw [packData_eq_flatMap, hTfold, hm, range_flatMap_succ]
    have hcol0 : 0 < (packCol x L 0).length := by
      rw [packCol_length hLx hsort, hc0]
      omega
    have hpc0 : (packCol x L 0).getD 0 [] = (x.getD 0 []).getD 0 [] :=
      @packCol_getD x L hLx hsort 0 0 (by rw [hc0]; omega)
    rw [h1, headD_append_left _ _ _ hcol0, headD_eq_getD_zero, hpc0]
    have hx0len : (x.getD 0 []).length = T := hrow _ hx0
    have h0len : 0 < (x.getD 0 []).length := by omega
    have hmem0 : (x.getD 0 []).getD 0 [] ∈ x.getD 0 [] := by
      rw [getD_eq_getElem (x.getD 0 []) [] h0len]
      exact List.getElem_mem h0len
    exact hdim _ hx0 _ hmem0
  have hoffset : ∀ t, t ≤ T → ((packBatchSizes L).take t).sum =
      ((List.range t).map (fun s => (packCol x L s).length)).sum := by
    intro t ht
    have h1 : (packBatchSizes L).take t =
        (List.range t).map (fun s => (L.filter (fun v => decide (s < v))).length) := by
      rw [packBatchSizes, hTfold, ← List.map_take, List.take_range,
        Nat.min_eq_left ht]
    rw [h1]
    congr 1
    refine List.map_congr_left (fun s _ => ?_)
    rw [packCol_length hLx hsort, List.countP_eq_length_filter]
  have hdata : ∀ t, t < T → ∀ b, b < L.countP (fun v => decide (t < v)) →
      (packData x L).getD (((packBatchSizes L).take t).sum + b) [] =
        (x.getD b []).getD t [] := by
    intro t ht b hb
    rw [packData_eq_flatMap, hTfold, hoffset t (by omega)]
    rw [getD_flatMap_range (packCol x L) [] ht (by rw [packCol_length hLx hsort]; exact hb)]
    exact packCol_getD hLx hsort hb
  refine List.ext_getElem ?_ ?_
  · simp only [pad_packed_sequence, List.length_map, List.length_range]
    rw [hhead_bs]
    omega
  · intro b hb1 hb2
    have hbB : b < B := by omega
    have hxb : x[b] ∈ x := List.getElem_mem hb2
    have hxblen : (x[b]).length = T := hrow _ hxb
    have hgb : x.getD b [] = x[b] := getD_eq_getElem x [] hb2
    have hb1' : b < (List.range ((packBatchSizes L).headD 0)).length := by
      simpa [pad_packed_sequence] using hb1
    have hrow_eq : (pad_packed_sequence ⟨packData x L, packBatchSizes L⟩)[b] =
        (List.range (packBatchSizes L).length).map (fun t =>
          if b < (packBatchSizes L).getD t 0 then
            (packData x L).getD (((packBatchSizes L).take t).sum + b) []
          else
            List.replicate ((packData x L).headD []).length 0) := by
      simp only [pad_packed_sequence, List.getElem_map, List.getElem_range]
    rw [hrow_eq]
    refine List.ext_getElem (by simp [hbs_len, hxblen]) ?_
    intro t ht1 ht2
    have htT : t < T := by
      simp only [List.length_map, List.length_range, hbs_len] at ht1
      exact ht1
    have htx : t < (x[b]).length := by omega
    have hentry : ((List.range (packBatchSizes L).length).map (fun t =>
        if b < (packBatchSizes L).getD t 0 then
          (packData x L).getD (((packBatchSizes L).take t).sum + b) []
        else
          List.replicate ((packData x L).headD []).length 0))[t] =
        (if b < (packBatchSizes L).getD t 0 then
          (packData x L).getD (((packBatchSizes L).take t).sum + b) []
        else
          List.replicate ((packData x L).headD []).length 0) := by
      simp only [List.getElem_map, List.getElem_range]
    rw [hentry]
    by_cases hc : b < L.countP (fun v => decide (t < v))
    · rw [if_pos (by rw [hbs_getD t htT]; exact hc)]
      rw [hdata t htT b hc, hgb]
      exact getD_eq_getElem _ [] htx
    · rw [if_neg (by rw [hbs_getD t htT]; exact hc)]
      have hge : L.getD b 0 ≤ t := by
        have := (hgal b hbB t).not
        omega
      have hz := hzero b hbB t htT hge
      rw [hdata_head, ← hz, hgb]
      exact getD_eq_getElem _ [] htx

theorem zeroRow_idem (r : List ℤ) : zeroRow (zeroRow r) = zeroRow r := by
  simp [zeroRow, List.map_map]

theorem mem_le_headD_of_sorted {L : List ℕ} (hs : L.Pairwise (· ≥ ·)) :
    ∀ v ∈ L, v ≤ L.headD 0 := by
  cases L with
  | nil => intro v hv; simp at hv
  | cons a t =>
    intro v hv
    rcases List.mem_cons.mp hv with rfl | h
    · simp
    · have := (List.pairwise_cons.mp hs).1 v h
      simp only [List.headD_cons]
      omega

/-- Reversing twice along the valid prefixes is the identity on batches whose
entries past each row's length are fixed points of `zeroRow` (in particular on
zero-padded batches). -/
theorem reverse_sequences_involution (x : List (List (List ℤ))) (L : List ℕ) (T : ℕ)
    (hLx : L.length = x.length)
    (hrow : ∀ r ∈ x, r.length = T)
    (hbound : ∀ b, b < x.length → L.getD b 0 ≤ T)
    (hfix : ∀ b, b < x.length → ∀ t, t < T → L.getD b 0 ≤ t →
      zeroRow ((x.getD b []).getD t []) = (x.getD b []).getD t []) :
    reverse_sequences (reverse_sequences x L) L = x := by
  have hylen : (reverse_sequences x L).length = x.length := by
    rw [reverse_sequences_length]
    omega
  refine List.ext_getElem (by rw [reverse_sequences_length, hylen]; omega) ?_
  intro b hb1 hb2
  have hbx : b < x.length := hb2
  have hbL : b < L.length := by omega
  have hby : b < (reverse_sequences x L).length := by omega
  have hxrow : (x.getD b []).length = T := by
    refine hrow _ ?_
    rw [getD_eq_getElem x [] hbx]
    exact List.getElem_mem hbx
  have hyrow : ((reverse_sequences x L).getD b []).length = (x.getD b []).length :=
    reverse_sequences_row_length x L hbx hbL
  have houter : (reverse_sequences (reverse_sequences x L) L)[b] =
      (reverse_sequences (reverse_sequences x L) L).getD b [] :=
    (getD_eq_getElem _ [] hb1).symm
  have hxb : x[b] = x.getD b [] := (getD_eq_getElem x [] hb2).symm
  rw [houter, hxb]
  have hlen3 : ((reverse_sequences (reverse_sequences x L) L).getD b []).length =
      (x.getD b []).length := by
    rw [reverse_sequences_row_length _ L hby hbL, hyrow]
  refine List.ext_getElem (by omega) ?_
  intro t ht1 ht2
  have htT : t < T := by
    rw [hlen3, hxrow] at ht1
    exact ht1
  have hty : t < ((reverse_sequences x L).getD b []).length := by omega
  have hg1 : ((reverse_sequences (reverse_sequences x L) L).getD b [])[t] =
      ((reverse_sequences (reverse_sequences x L) L).getD b []).getD t [] :=
    (getD_eq_getElem _ [] ht1).symm
  have hg2 : (x.getD b [])[t] = (x.getD b []).getD t [] :=
    (getD_eq_getElem _ [] ht2).symm
  rw [hg1, hg2]
  rw [reverse_sequences_entry (reverse_sequences x L) L hby hbL hty]
  by_cases hc : t < L.getD b 0
  · rw [if_pos hc]
    have hidx : L.getD b 0 - 1 - t < (x.getD b []).length := by
      have := hbound b hbx
      omega
    rw [reverse_sequences_entry x L hbx hbL hidx, if_pos (by omega)]
    have : L.getD b 0 - 1 - (L.getD b 0 - 1 - t) = t := by omega
    rw [this]
  · rw [if_neg hc]
    have hinner : t < (x.getD b []).length := by omega
    rw [reverse_sequences_entry x L hbx hbL hinner, if_neg hc, zeroRow_idem]
    exact hfix b hbx t htT (by omega)

/-! ### Claim C4 -/

/-- C4 counterexample: the claim fails as stated.  The batch
`x = [[[5], [0]]]` with lengths `L = [1]` satisfies every condition of the
claim (entries beyond length 1 are zero, lengths are non-increasing and lie in
`[0, T] = [0, 2]`), yet the round trip returns the batch `[[[5]]]` with only
one time step — the unpacked width is the maximal length 1, not `T = 2` — so
the result is not `x`. -/
theorem C4_counterexample :
    (pack_padded_sequence (reverse_sequences [[[5], [0]]] [1]) [1]).map
      (fun p => pad_and_reverse p [1]) ≠ some [[[5], [0]]] := by
  decide

/-- C4 (amended): the pack/unpack round trip recovers `x` exactly when,
additionally, every length is at least 1 and the maximal length equals the
time dimension `T` (the head of the non-increasing lengths is `T`, and the
batch is nonempty).  These conditions are forced: `pack_padded_sequence`
raises on zero lengths, and `pad_packed_sequence` restores only
`max L` time steps. -/
theorem C4_pack_unpack_roundtrip (x : List (List (List ℤ))) (L : List ℕ)
    (B T D : ℕ) (hx : x.length = B) (hL : L.length = B) (hB : 0 < B)
    (hrow : ∀ r ∈ x, r.length = T)
    (hdim : ∀ r ∈ x, ∀ e ∈ r, e.length = D)
    (hpos : ∀ v ∈ L, 0 < v)
    (hsort : L.Pairwise (· ≥ ·))
    (hmax : L.headD 0 = T)
    (hzero : ∀ b, b < B → ∀ t, t < T → L.getD b 0 ≤ t →
      (x.getD b []).getD t [] = List.replicate D 0) :
    (pack_padded_sequence (reverse_sequences x L) L).map
      (fun p => pad_and_reverse p L) = some x := by
  have hbound : ∀ b, b < x.length → L.getD b 0 ≤ T := by
    intro b hb
    have hbL : b < L.length := by omega
    have hmem : L.getD b 0 ∈ L := by
      rw [getD_eq_getElem L 0 hbL]
      exact List.getElem_mem hbL
    have := mem_le_headD_of_sorted hsort _ hmem
    omega
  have hylen : (reverse_sequences x L).length = B := by
    rw [reverse_sequences_length]
    omega
  have hyrowlen : ∀ b, b < B → ((reverse_sequences x L).getD b []).length = T := by
    intro b hb
    rw [reverse_sequences_row_length x L (by omega) (by omega)]
    refine hrow _ ?_
    rw [getD_eq_getElem x [] (by omega)]
    exact List.getElem_mem (by omega)
  have hyrow : ∀ r ∈ reverse_sequences x L, r.length = T := by
    intro r hr
    obtain ⟨b, hb, hbr⟩ := List.mem_iff_getElem.mp hr
    have hbB : b < B := by omega
    rw [← hbr, ← getD_eq_getElem _ [] hb]
    exact hyrowlen b hbB
  have hxrowlen : ∀ b, b < B → (x.getD b []).length = T := by
    intro b hb
    refine hrow _ ?_
    rw [getD_eq_getElem x [] (by omega)]
    exact List.getElem_mem (by omega)
  have hxentry_len : ∀ b, b < B → ∀ t, t < T → ((x.getD b []).getD t []).length = D := by
    intro b hb t ht
    have hx1 : x.getD b [] ∈ x := by
      rw [getD_eq_getElem x [] (by omega)]
      exact List.getElem_mem (by omega)
    have ht' : t < (x.getD b []).length := by
      rw [hxrowlen b hb]; exact ht
    refine hdim _ hx1 _ ?_
    rw [getD_eq_getElem _ [] ht']
    exact List.getElem_mem ht'
  have hydim : ∀ r ∈ reverse_sequences x L, ∀ e ∈ r, e.length = D := by
    intro r hr e he
    obtain ⟨b, hb, hbr⟩ := List.mem_iff_getElem.mp hr
    subst hbr
    have hbB : b < B := by omega
    obtain ⟨t, ht, hte⟩ := List.mem_iff_getElem.mp he
    subst hte
    have htT : t < T := by
      have h1 := hyrowlen b hbB
      have h2 : ((reverse_sequences x L)[b]).length =
          ((reverse_sequences x L).getD b []).length := by
        rw [getD_eq_getElem _ [] hb]
      omega
    have hg : ((reverse_sequences x L)[b])[t] =
        ((reverse_sequences x L).getD b []).getD t [] := by
      rw [getD_eq_getElem (reverse_sequences x L) [] hb,
        getD_eq_getElem ((reverse_sequences x L)[b]) [] ht]
    rw [hg, reverse_sequences_entry x L (by omega) (by omega)
      (by rw [hxrowlen b hbB]; exact htT)]
    by_cases hc : t < L.getD b 0
    · rw [if_pos hc]
      exact hxentry_len b hbB _ (by have := hbound b (by omega); omega)
    · rw [if_neg hc]
      rw [zeroRow_eq, List.length_replicate]
      exact hxentry_len b hbB t htT
  have hyzero : ∀ b, b < B → ∀ t, t < T → L.getD b 0 ≤ t →
      ((reverse_sequences x L).getD b []).getD t [] = List.replicate D 0 := by
    intro b hb t ht hge
    rw [reverse_sequences_entry x L (by omega) (by omega) (by rw [hxrowlen b hb]; exact ht)]
    rw [if_neg (by omega), zeroRow_eq, hxentry_len b hb t ht]
  have hLne : L ≠ [] := by
    intro h
    rw [h] at hL
    simp at hL
    omega
  have hpack : pack_padded_sequence (reverse_sequences x L) L =
      some ⟨packData (reverse_sequences x L) L, packBatchSizes L⟩ := by
    rw [pack_padded_sequence, if_pos ⟨hLne, by omega, hpos, hsort⟩]
  rw [hpack, Option.map_some']
  have hunpack : pad_packed_sequence ⟨packData (reverse_sequences x L) L,
      packBatchSizes L⟩ = reverse_sequences x L :=
    pad_packed_pack (reverse_sequences x L) L B T D (by omega) hylen hB hyrow hydim
      hpos hsort hmax (fun b hb t ht hge => by
        have h1 := hyzero b hb t ht hge
        exact h1)
  rw [pad_and_reverse, hunpack]
  rw [reverse_sequences_involution x L T (by omega) hrow hbound ?_]
  intro b hb t ht hge
  rw [hzero b (by omega) t ht hge, zeroRow_eq, List.length_replicate]

/-- Witness for the amended C4 at a concrete input: a two-row batch with
lengths `[2, 1]` and zero padding beyond the valid prefixes round-trips
exactly. -/
theorem C4_pack_unpack_roundtrip_witness :
    (pack_padded_sequence (reverse_sequences [[[1], [2]], [[3], [0]]] [2, 1]) [2, 1]).map
      (fun p => pad_and_reverse p [2, 1]) = some [[[1], [2]], [[3], [0]]] :=
  C4_pack_unpack_roundtrip [[[1], [2]], [[3], [0]]] [2, 1] 2 2 1 (by decide) (by decide)
    (by decide) (by decide) (by decide) (by decide) (by decide) (by decide) (by decide)

/-! ### Claim C1 -/

/-- C1 counterexample: two examples of equal length 3 in original order
`[0, 1]`.  Stable descending sorting would leave the order `[0, 1]` and hence
`source_indices = [0, 1]`; `get_mini_batch` (which flips a stable ascending
sort) returns `source_indices = [1, 0]`, so ties are NOT broken stably. -/
theorem C1_counterexample :
    (get_mini_batch [0, 1] [[[1], [2], [3]], [[4], [5], [6]]] [3, 3] none
      [[0], [0]] none none [0, 1] false).sorted_seq_lengths = [3, 3] ∧
    (get_mini_batch [0, 1] [[[1], [2], [3]], [[4], [5], [6]]] [3, 3] none
      [[0], [0]] none none [0, 1] false).source_indices = [1, 0] := by
  exact ⟨by decide, by decide⟩

/-- C1 (amended): the permutation applied by `get_mini_batch` sorts the
gathered lengths into descending order — `sorted_seq_lengths` is
non-increasing across the batch — but ties are broken ANTI-stably: for any
two positions of the sorted output holding equal gathered lengths, the
original relative order within `mini_batch_indices` is reversed (the code
flips a stable ascending sort, which reverses equal-length runs). -/
theorem C1_sort_descending_antistable (mini_batch_indices : List ℕ)
    (sequences : List (List (List ℤ))) (seq_lengths : List ℕ)
    (sequences_feature_mask : Option (List (List (List ℤ))))
    (static : List (List ℤ)) (y_sequence y_mask_sequence : Option (List ℤ))
    (indices_dataset : List ℕ) (use_feature_mask : Bool) :
    ((get_mini_batch mini_batch_indices sequences seq_lengths sequences_feature_mask
        static y_sequence y_mask_sequence indices_dataset
        use_feature_mask).sorted_seq_lengths).Pairwise (· ≥ ·) ∧
    (∀ p q : ℕ, p < q → q < (sortedBatchIdx seq_lengths mini_batch_indices).length →
      (batchLengths seq_lengths mini_batch_indices).getD
          ((sortedBatchIdx seq_lengths mini_batch_indices).getD p 0) 0 =
        (batchLengths seq_lengths mini_batch_indices).getD
          ((sortedBatchIdx seq_lengths mini_batch_indices).getD q 0) 0 →
      (sortedBatchIdx seq_lengths mini_batch_indices).getD q 0 <
        (sortedBatchIdx seq_lengths mini_batch_indices).getD p 0) := by
  constructor
  · exact sortedSeqLengths_pairwise seq_lengths mini_batch_indices
  · intro p q hpq hq heq
    exact argsortDesc_antistable hpq hq heq

/-- Witness for the amended C1: at lengths `[3, 3]` the sorted lengths are
non-increasing and the sorted index at position 1 is smaller than the one at
position 0 (anti-stable tie). -/
theorem C1_sort_descending_antistable_witness :
    ((get_mini_batch [0, 1] [[[1], [2], [3]], [[4], [5], [6]]] [3, 3] none [[0], [0]]
        none none [0, 1] false).sorted_seq_lengths).Pairwise (· ≥ ·) ∧
    (sortedBatchIdx [3, 3] [0, 1]).getD 1 0 < (sortedBatchIdx [3, 3] [0, 1]).getD 0 0 := by
  have h := C1_sort_descending_antistable [0, 1] [[[1], [2], [3]], [[4], [5], [6]]]
    [3, 3] none [[0], [0]] none none [0, 1] false
  exact ⟨h.1, h.2 0 1 (by decide) (by decide) (by decide)⟩

/-! ### Claim C6 -/

/-- C6: `batchify` keeps example `i` iff `0 < seq_lengths[i] ≤ max_len` (both
bounds; length exactly `max_len` kept), preserves the original relative order
among kept examples (`keep_index` is strictly increasing), and applies the
identical filter — indexing by the same `keep_index` — to sequences, lengths,
static, and to feature_mask, y and y_mask when present. -/
theorem C6_filter (sequences : List (List (List ℤ))) (seq_lengths : List ℕ)
    (sequences_feature_mask : Option (List (List (List ℤ))))
    (static : List (List ℤ)) (y_sequence y_mask_sequence : Option (List ℤ))
    (max_len batch_size : ℕ) (use_feature_mask : Bool) :
    (∀ i, i ∈ keepIndex seq_lengths max_len ↔
      (i < seq_lengths.length ∧ 0 < seq_lengths.getD i 0 ∧
        seq_lengths.getD i 0 ≤ max_len)) ∧
    (keepIndex seq_lengths max_len).Pairwise (· < ·) ∧
    (batchify sequences seq_lengths sequences_feature_mask static y_sequence
        y_mask_sequence max_len batch_size use_feature_mask =
      (List.range (nMiniBatches (keepIndex seq_lengths max_len).length batch_size)).map
        (fun k => get_mini_batch
          (batchIndices (keepIndex seq_lengths max_len).length batch_size k)
          (gather sequences [] (keepIndex seq_lengths max_len))
          (gather seq_lengths 0 (keepIndex seq_lengths max_len))
          (sequences_feature_mask.map (fun m => gather m [] (keepIndex seq_lengths max_len)))
          (gather static [] (keepIndex seq_lengths max_len))
          (y_sequence.map (fun m => gather m 0 (keepIndex seq_lengths max_len)))
          (y_mask_sequence.map (fun m => gather m 0 (keepIndex seq_lengths max_len)))
          (keepIndex seq_lengths max_len) use_feature_mask)) := by
  refine ⟨?_, ?_, ?_⟩
  · intro i
    simp only [keepIndex, List.mem_filter, List.mem_range, Bool.and_eq_true,
      decide_eq_true_eq]
    omega
  · exact (List.pairwise_lt_range _).filter _
  · simp only [batchify, gather_length]

/-! ### Lemmas about the mini-batch partition -/

theorem nMiniBatches_zero (bs : ℕ) : nMiniBatches 0 bs = 0 := by
  simp [nMiniBatches]

theorem nMiniBatches_eq_ceil {n bs : ℕ} (hbs : 1 ≤ bs) :
    nMiniBatches n bs = (n + bs - 1) / bs := by
  obtain ⟨q, r, hqr, hr⟩ : ∃ q r, n = bs * q + r ∧ r < bs :=
    ⟨n / bs, n % bs, (Nat.div_add_mod n bs).symm, Nat.mod_lt n (by omega)⟩
  have hdiv : n / bs = q := by
    rw [hqr, Nat.mul_add_div (by omega), Nat.div_eq_of_lt hr, Nat.add_zero]
  have hmod : n % bs = r := by
    rw [hqr, Nat.mul_add_mod, Nat.mod_eq_of_lt hr]
  rcases Nat.eq_zero_or_pos r with hr0 | hr0
  · subst hr0
    have h1 : n + bs - 1 = bs * q + (bs - 1) := by omega
    rw [nMiniBatches, hdiv, hmod, h1, Nat.mul_add_div (by omega),
      Nat.div_eq_of_lt (by omega)]
    simp
  · have h1 : n + bs - 1 = bs * (q + 1) + (r - 1) := by
      have : bs * (q + 1) = bs * q + bs := by ring
      omega
    rw [nMiniBatches, hdiv, hmod, h1, Nat.mul_add_div (by omega),
      Nat.div_eq_of_lt (by omega)]
    simp [hr0]

theorem nMiniBatches_succ {n bs : ℕ} (hbs : 1 ≤ bs) (hn : 0 < n) :
    nMiniBatches n bs = nMiniBatches (n - bs) bs + 1 := by
  by_cases hle : n ≤ bs
  · have h1 : n - bs = 0 := by omega
    rw [h1, nMiniBatches_zero]
    rcases Nat.lt_or_ge n bs with hlt | hge
    · have hdiv : n / bs = 0 := Nat.div_eq_of_lt hlt
      have hmod : n % bs = n := Nat.mod_eq_of_lt hlt
      simp [nMiniBatches, hdiv, hmod, hn]
    · have hnb : n = bs := by omega
      subst hnb
      simp [nMiniBatches, Nat.div_self (by omega : 0 < n), Nat.mod_self]
  · have hge : bs ≤ n := by omega
    have hdiv : n / bs = (n - bs) / bs + 1 :=
      Nat.div_eq_sub_div (by omega) hge
    have hmod : n % bs = (n - bs) % bs := Nat.mod_eq_sub_mod hge
    simp only [nMiniBatches, hdiv, hmod]
    omega

theorem chunks_join {α : Type} {bs : ℕ} (hbs : 1 ≤ bs) :
    ∀ (n : ℕ) (l : List α), l.length = n →
      (List.range (nMiniBatches n bs)).flatMap (fun k => (l.drop (k * bs)).take bs) = l := by
  intro n
  induction n using Nat.strong_induction_on with
  | _ n ih =>
    intro l hl
    rcases Nat.eq_zero_or_pos n with h0 | h0
    · subst h0
      rw [nMiniBatches_zero]
      simp only [List.range_zero, List.flatMap_nil]
      exact (List.length_eq_zero.mp hl).symm
    · rw [nMiniBatches_succ hbs h0, range_flatMap_succ]
      have hf0 : (l.drop (0 * bs)).take bs = l.take bs := by
        simp
      have hfs : (fun k => (l.drop ((k + 1) * bs)).take bs) =
          (fun k => (((l.drop bs).drop (k * bs)).take bs)) := by
        funext k
        rw [List.drop_drop]
        congr 2
        ring
      rw [hf0, hfs]
      have hrest := ih (n - bs) (by omega) (l.drop bs) (by simp [hl])
      rw [hrest, List.take_append_drop]

theorem batchIndices_length (n bs k : ℕ) :
    (batchIndices n bs k).length = min bs (n - k * bs) := by
  simp [batchIndices]

theorem batchIndices_pos {n bs k : ℕ} (hbs : 1 ≤ bs) (hk : k < nMiniBatches n bs) :
    k * bs < n := by
  obtain ⟨q, r, hqr, hr⟩ : ∃ q r, n = bs * q + r ∧ r < bs :=
    ⟨n / bs, n % bs, (Nat.div_add_mod n bs).symm, Nat.mod_lt n (by omega)⟩
  have hdiv : n / bs = q := by
    rw [hqr, Nat.mul_add_div (by omega), Nat.div_eq_of_lt hr, Nat.add_zero]
  have hmod : n % bs = r := by
    rw [hqr, Nat.mul_add_mod, Nat.mod_eq_of_lt hr]
  rw [nMiniBatches, hdiv, hmod] at hk
  have hcomm : bs * q = q * bs := by ring
  rcases Nat.eq_zero_or_pos r with hr0 | hr0
  · subst hr0
    simp only [Nat.lt_irrefl, if_false, Nat.add_zero] at hk
    have h1 : (k + 1) * bs ≤ q * bs := Nat.mul_le_mul_right bs (by omega)
    have h2 : (k + 1) * bs = k * bs + bs := by ring
    omega
  · have hk2 : k ≤ q := by
      rcases Nat.lt_or_ge 0 r with h | h
      · simp only [h, if_true] at hk
        omega
      · omega
    have h1 : k * bs ≤ q * bs := Nat.mul_le_mul_right bs hk2
    omega

theorem batchIndices_full_length {n bs k : ℕ} (hbs : 1 ≤ bs)
    (hk : k + 1 < nMiniBatches n bs) :
    (batchIndices n bs k).length = bs := by
  have h1 : (k + 1) * bs < n := batchIndices_pos hbs hk
  have h2 : (k + 1) * bs = k * bs + bs := by ring
  rw [batchIndices_length]
  omega

theorem batchIndices_last_length {n bs : ℕ} (hbs : 1 ≤ bs)
    (hpos : 0 < nMiniBatches n bs) :
    (batchIndices n bs (nMiniBatches n bs - 1)).length =
      if n % bs = 0 then bs else n % bs := by
  obtain ⟨q, r, hqr, hr⟩ : ∃ q r, n = bs * q + r ∧ r < bs :=
    ⟨n / bs, n % bs, (Nat.div_add_mod n bs).symm, Nat.mod_lt n (by omega)⟩
  have hdiv : n / bs = q := by
    rw [hqr, Nat.mul_add_div (by omega), Nat.div_eq_of_lt hr, Nat.add_zero]
  have hmod : n % bs = r := by
    rw [hqr, Nat.mul_add_mod, Nat.mod_eq_of_lt hr]
  have hcomm : bs * q = q * bs := by ring
  rw [batchIndices_length, hmod]
  rcases Nat.eq_zero_or_pos r with hr0 | hr0
  · subst hr0
    have hnm : nMiniBatches n bs = q := by
      simp [nMiniBatches, hdiv, hmod]
    have hq : 0 < q := by
      rw [hnm] at hpos
      exact hpos
    have h1 : (q - 1) * bs = q * bs - bs := by
      rw [Nat.sub_mul, Nat.one_mul]
    have h4 : bs ≤ q * bs := Nat.le_mul_of_pos_left bs hq
    have h2 : n - (q - 1) * bs = bs := by omega
    rw [if_pos rfl, hnm, h2]
    exact Nat.min_self bs
  · have hnm : nMiniBatches n bs = q + 1 := by
      simp [nMiniBatches, hdiv, hmod, hr0]
    rw [hnm]
    simp only [Nat.add_sub_cancel]
    rw [if_neg (by omega)]
    have h5 : n - q * bs = r := by omega
    rw [h5]
    exact Nat.min_eq_right (by omega)

theorem flatMap_perm_congr {α β : Type} (l : List α) (f g : α → List β)
    (h : ∀ a ∈ l, List.Perm (f a) (g a)) :
    List.Perm (l.flatMap f) (l.flatMap g) := by
  induction l with
  | nil => exact List.Perm.refl _
  | cons a t ih =>
    rw [List.flatMap_cons, List.flatMap_cons]
    exact (h a (by simp)).append (ih (fun a ha => h a (by simp [ha])))

/-- The sorted mini-batch indices are a permutation of the chunk indices. -/
theorem sortedMBI_perm (sl : List ℕ) (idx : List ℕ) :
    List.Perm (sortedMBI sl idx) idx := by
  have h1 : List.Perm (argsortDesc (batchLengths sl idx)) (List.range idx.length) := by
    have h := argsortDesc_perm (batchLengths sl idx)
    rwa [batchLengths_length] at h
  have h2 := h1.map (fun i => idx.getD i 0)
  rw [map_getD_range idx 0] at h2
  exact h2

/-! ### Claim C7 -/

/-- C7: with `N` kept examples and `batch_size ≥ 1`, `batchify` partitions the
kept examples into `⌈N / batch_size⌉` contiguous chunks in filtered order:
every chunk has exactly `batch_size` examples except possibly the last, which
has `N mod batch_size` when that is nonzero; the chunks joined in order are
exactly the kept positions `0, …, N-1`, so every kept example appears in
exactly one returned MiniBatch (the concatenated `source_indices` are a
permutation of `keep_index`); and when filtering yields zero examples,
`batchify` returns the empty list. -/
theorem C7_partition (sequences : List (List (List ℤ))) (seq_lengths : List ℕ)
    (sequences_feature_mask : Option (List (List (List ℤ))))
    (static : List (List ℤ)) (y_sequence y_mask_sequence : Option (List ℤ))
    (max_len batch_size : ℕ) (use_feature_mask : Bool)
    (hbs : 1 ≤ batch_size) :
    (batchify sequences seq_lengths sequences_feature_mask static y_sequence
        y_mask_sequence max_len batch_size use_feature_mask).length =
      nMiniBatches (keepIndex seq_lengths max_len).length batch_size ∧
    nMiniBatches (keepIndex seq_lengths max_len).length batch_size =
      ((keepIndex seq_lengths max_len).length + batch_size - 1) / batch_size ∧
    ((keepIndex seq_lengths max_len).length = 0 →
      batchify sequences seq_lengths sequences_feature_mask static y_sequence
        y_mask_sequence max_len batch_size use_feature_mask = []) ∧
    ((List.range (nMiniBatches (keepIndex seq_lengths max_len).length batch_size)).flatMap
        (batchIndices (keepIndex seq_lengths max_len).length batch_size) =
      List.range (keepIndex seq_lengths max_len).length) ∧
    (∀ k, k + 1 < nMiniBatches (keepIndex seq_lengths max_len).length batch_size →
      (batchIndices (keepIndex seq_lengths max_len).length batch_size k).length =
        batch_size) ∧
    (0 < nMiniBatches (keepIndex seq_lengths max_len).length batch_size →
      (batchIndices (keepIndex seq_lengths max_len).length batch_size
          (nMiniBatches (keepIndex seq_lengths max_len).length batch_size - 1)).length =
        if (keepIndex seq_lengths max_len).length % batch_size = 0 then batch_size
        else (keepIndex seq_lengths max_len).length % batch_size) ∧
    List.Perm (((batchify sequences seq_lengths sequences_feature_mask static
        y_sequence y_mask_sequence max_len batch_size use_feature_mask).map
        MiniBatch.source_indices).flatten)
      (keepIndex seq_lengths max_len) := by
  have hlen : (batchify sequences seq_lengths sequences_feature_mask static y_sequence
      y_mask_sequence max_len batch_size use_feature_mask).length =
      nMiniBatches (keepIndex seq_lengths max_len).length batch_size := by
    simp [batchify]
  have hjoin : (List.range
      (nMiniBatches (keepIndex seq_lengths max_len).length batch_size)).flatMap
      (batchIndices (keepIndex seq_lengths max_len).length batch_size) =
      List.range (keepIndex seq_lengths max_len).length :=
    chunks_join hbs (keepIndex seq_lengths max_len).length
      (List.range (keepIndex seq_lengths max_len).length) (List.length_range _)
  refine ⟨hlen, nMiniBatches_eq_ceil hbs, ?_, hjoin,
    fun k hk => batchIndices_full_length hbs hk,
    fun h => batchIndices_last_length hbs h, ?_⟩
  · intro h0
    have h1 : (batchify sequences seq_lengths sequences_feature_mask static y_sequence
        y_mask_sequence max_len batch_size use_feature_mask).length = 0 := by
      rw [hlen, h0, nMiniBatches_zero]
    exact List.length_eq_zero.mp h1
  · have hmap : (batchify sequences seq_lengths sequences_feature_mask static y_sequence
        y_mask_sequence max_len batch_size use_feature_mask).map
        MiniBatch.source_indices =
        (List.range (nMiniBatches (keepIndex seq_lengths max_len).length batch_size)).map
          (fun k => gather (keepIndex seq_lengths max_len) 0
            (sortedMBI (gather seq_lengths 0 (keepIndex seq_lengths max_len))
              (batchIndices (keepIndex seq_lengths max_len).length batch_size k))) := by
      simp only [batchify, gather_length, List.map_map]
      rfl
    rw [hmap]
    have hflat : ((List.range
        (nMiniBatches (keepIndex seq_lengths max_len).length batch_size)).map
        (fun k => gather (keepIndex seq_lengths max_len) 0
          (sortedMBI (gather seq_lengths 0 (keepIndex seq_lengths max_len))
            (batchIndices (keepIndex seq_lengths max_len).length batch_size k)))).flatten =
        (List.range
          (nMiniBatches (keepIndex seq_lengths max_len).length batch_size)).flatMap
          (fun k => gather (keepIndex seq_lengths max_len) 0
            (sortedMBI (gather seq_lengths 0 (keepIndex seq_lengths max_len))
              (batchIndices (keepIndex seq_lengths max_len).length batch_size k))) := rfl
    rw [hflat]
    refine List.Perm.trans (flatMap_perm_congr _ _
      (fun k => gather (keepIndex seq_lengths max_len) 0
        (batchIndices (keepIndex seq_lengths max_len).length batch_size k)) ?_) ?_
    · intro k _
      exact (sortedMBI_perm _ _).map
        (fun i => (keepIndex seq_lengths max_len).getD i 0)
    · have h2 : (List.range
          (nMiniBatches (keepIndex seq_lengths max_len).length batch_size)).flatMap
          (fun k => gather (keepIndex seq_lengths max_len) 0
            (batchIndices (keepIndex seq_lengths max_len).length batch_size k)) =
          ((List.range
            (nMiniBatches (keepIndex seq_lengths max_len).length batch_size)).flatMap
            (batchIndices (keepIndex seq_lengths max_len).length batch_size)).map
            (fun i => (keepIndex seq_lengths max_len).getD i 0) := by
        rw [List.map_flatMap]
        rfl
      rw [h2, hjoin, map_getD_range (keepIndex seq_lengths max_len) 0]

/-- Witness for C7: three kept examples, batch size 2: two batches are
returned and their `source_indices` jointly enumerate `keep_index`. -/
theorem C7_partition_witness :
    (batchify [[[1]], [[2]], [[3]]] [1, 1, 1] none [[0], [0], [0]] none none 10 2
        false).length = nMiniBatches (keepIndex [1, 1, 1] 10).length 2 ∧
    List.Perm (((batchify [[[1]], [[2]], [[3]]] [1, 1, 1] none [[0], [0], [0]] none none
        10 2 false).map MiniBatch.source_indices).flatten) (keepIndex [1, 1, 1] 10) := by
  have h := C7_partition [[[1]], [[2]], [[3]]] [1, 1, 1] none [[0], [0], [0]] none none
    10 2 false (by decide)
  exact ⟨h.1, h.2.2.2.2.2.2⟩

/-! ### Row fidelity of `get_mini_batch` -/

/-- If `idx` is nonempty, the first sorted example declares the maximal
length `T_max`. -/
theorem tMax_eq_first_sorted (sl : List ℕ) (idx : List ℕ) (hne : 0 < idx.length) :
    sl.getD ((sortedMBI sl idx).getD 0 0) 0 = tMax sl idx := by
  rw [← sortedSeqLengths_getD sl idx hne, ← headD_eq_getD_zero,
    sortedSeqLengths_headD]

/-- If `T_max` is positive, the batch is nonempty. -/
theorem idx_ne_of_tMax_pos {sl : List ℕ} {idx : List ℕ} (h : 0 < tMax sl idx) :
    0 < idx.length := by
  by_contra hc
  have h0 : idx = [] := List.length_eq_zero.mp (by omega)
  rw [tMax, batchLengths, h0] at h
  simp [gather] at h

/-- Row `b` of every per-example array built by `get_mini_batch` comes from the
single example `j = sorted_mini_batch_indices[b]`: the returned
`source_indices[b]` is `indices_dataset[j]`, `static[b]` is the dataset's
static row `j`, `sequence[b]` is sequence `j` truncated to `T_max` and
zero-padded, and likewise for `y`, `y_mask` and `feature_mask` when present. -/
theorem get_mini_batch_fidelity (idx : List ℕ) (seqs : List (List (List ℤ)))
    (sl : List ℕ) (sfm : Option (List (List (List ℤ)))) (st : List (List ℤ))
    (ys yms : Option (List ℤ)) (inds : List ℕ) (u : Bool) (D : ℕ)
    (hstored : ∀ i ∈ idx, sl.getD i 0 ≤ (seqs.getD i []).length)
    (hdim : ∀ i ∈ idx, ∀ r ∈ seqs.getD i [], r.length = D)
    (hfm : ∀ m, sfm = some m → ((∀ i ∈ idx, sl.getD i 0 ≤ (m.getD i []).length) ∧
      (∀ i ∈ idx, ∀ r ∈ m.getD i [], r.length = D)))
    {b : ℕ} (hb : b < idx.length) :
    (get_mini_batch idx seqs sl sfm st ys yms inds u).sorted_seq_lengths.headD 0 =
      tMax sl idx ∧
    (get_mini_batch idx seqs sl sfm st ys yms inds u).source_indices.getD b 0 =
      inds.getD ((sortedMBI sl idx).getD b 0) 0 ∧
    (get_mini_batch idx seqs sl sfm st ys yms inds u).static.getD b [] =
      st.getD ((sortedMBI sl idx).getD b 0) [] ∧
    (get_mini_batch idx seqs sl sfm st ys yms inds u).sequence.getD b [] =
      padRows (tMax sl idx) D (seqs.getD ((sortedMBI sl idx).getD b 0) []) ∧
    ((get_mini_batch idx seqs sl sfm st ys yms inds u).y).map (fun l => l.getD b 0) =
      ys.map (fun l => l.getD ((sortedMBI sl idx).getD b 0) 0) ∧
    ((get_mini_batch idx seqs sl sfm st ys yms inds u).y_mask).map
        (fun l => l.getD b 0) =
      yms.map (fun l => l.getD ((sortedMBI sl idx).getD b 0) 0) ∧
    ((get_mini_batch idx seqs sl sfm st ys yms inds u).feature_mask).map
        (fun l => l.getD b []) =
      sfm.map (fun m => padRows (tMax sl idx) D (m.getD ((sortedMBI sl idx).getD b 0) [])) := by
  have hbs : b < (sortedMBI sl idx).length := by
    rw [sortedMBI_length]
    exact hb
  have hfull : tMax sl idx = 0 ∨ ((sortedMBI sl idx) ≠ [] ∧
      tMax sl idx ≤ (seqs.getD ((sortedMBI sl idx).getD 0 0) []).length) := by
    rcases Nat.eq_zero_or_pos (tMax sl idx) with h0 | h0
    · exact Or.inl h0
    · have hne : 0 < idx.length := idx_ne_of_tMax_pos h0
      refine Or.inr ⟨?_, ?_⟩
      · intro hc
        have : (sortedMBI sl idx).length = 0 := by rw [hc]; rfl
        rw [sortedMBI_length] at this
        omega
      · have hj0 : (sortedMBI sl idx).getD 0 0 ∈ idx := sortedMBI_getD_mem sl idx hne
        have h1 := hstored _ hj0
        have h2 := tMax_eq_first_sorted sl idx hne
        omega
  have hdim' : ∀ j ∈ sortedMBI sl idx, ∀ r ∈ seqs.getD j [], r.length = D :=
    fun j hj => hdim j ((sortedMBI_perm sl idx).mem_iff.mp hj)
  refine ⟨sortedSeqLengths_headD sl idx, ?_, ?_, ?_, ?_, ?_, ?_⟩
  · exact gather_getD inds 0 _ hbs
  · exact gather_getD st [] _ hbs
  · exact pad_truncSeqs_getD seqs (sortedMBI sl idx) (tMax sl idx) D hfull hdim' hbs
  · cases ys with
    | none => rfl
    | some l =>
      simp only [get_mini_batch, Option.map_some']
      rw [gather_getD l 0 _ hbs]
  · cases yms with
    | none => rfl
    | some l =>
      simp only [get_mini_batch, Option.map_some']
      rw [gather_getD l 0 _ hbs]
  · cases sfm with
    | none => rfl
    | some m =>
      obtain ⟨hfm1, hfm2⟩ := hfm m rfl
      have hfullm : tMax sl idx = 0 ∨ ((sortedMBI sl idx) ≠ [] ∧
          tMax sl idx ≤ (m.getD ((sortedMBI sl idx).getD 0 0) []).length) := by
        rcases Nat.eq_zero_or_pos (tMax sl idx) with h0 | h0
        · exact Or.inl h0
        · have hne : 0 < idx.length := idx_ne_of_tMax_pos h0
          refine Or.inr ⟨?_, ?_⟩
          · intro hc
            have : (sortedMBI sl idx).length = 0 := by rw [hc]; rfl
            rw [sortedMBI_length] at this
            omega
          · have hj0 : (sortedMBI sl idx).getD 0 0 ∈ idx := sortedMBI_getD_mem sl idx hne
            have h1 := hfm1 _ hj0
            have h2 := tMax_eq_first_sorted sl idx hne
            omega
      have hdimm : ∀ j ∈ sortedMBI sl idx, ∀ r ∈ m.getD j [], r.length = D :=
        fun j hj => hfm2 j ((sortedMBI_perm sl idx).mem_iff.mp hj)
      simp only [get_mini_batch, Option.map_some']
      exact congrArg some (pad_truncSeqs_getD m (sortedMBI sl idx) (tMax sl idx) D
        hfullm hdimm hbs)

/-! ### Claim C2 -/

/-- The `k`-th MiniBatch returned by `batchify`. -/
def batchAt (sequences : List (List (List ℤ))) (seq_lengths : List ℕ)
    (sequences_feature_mask : Option (List (List (List ℤ))))
    (static : List (List ℤ)) (y_sequence y_mask_sequence : Option (List ℤ))
    (max_len batch_size : ℕ) (use_feature_mask : Bool) (k : ℕ) : MiniBatch :=
  (batchify sequences seq_lengths sequences_feature_mask static y_sequence
    y_mask_sequence max_len batch_size use_feature_mask).getD k default

/-- C2: for every MiniBatch returned by `batchify` and every row `b`,
`source_indices[b]` is the original dataset index of the example whose data
populates row `b` of every per-example array in the bundle: `static[b]` equals
the dataset's static row at `source_indices[b]`, `sequence[b]` equals the
dataset's sequence at `source_indices[b]` truncated to `T_max` and
zero-padded, and likewise for `y`, `y_mask` and `feature_mask` when present —
all per-example arrays are permuted by the same permutation. -/
theorem C2_source_indices_fidelity (sequences : List (List (List ℤ)))
    (seq_lengths : List ℕ) (sequences_feature_mask : Option (List (List (List ℤ))))
    (static : List (List ℤ)) (y_sequence y_mask_sequence : Option (List ℤ))
    (max_len batch_size : ℕ) (use_feature_mask : Bool) (D : ℕ)
    (hlen : seq_lengths.length = sequences.length)
    (hstored : ∀ i, i < seq_lengths.length →
      seq_lengths.getD i 0 ≤ (sequences.getD i []).length)
    (hdim : ∀ s ∈ sequences, ∀ r ∈ s, r.length = D)
    (hfm : ∀ m, sequences_feature_mask = some m → (seq_lengths.length = m.length ∧
      (∀ i, i < seq_lengths.length → seq_lengths.getD i 0 ≤ (m.getD i []).length) ∧
      (∀ s ∈ m, ∀ r ∈ s, r.length = D)))
    (k b : ℕ)
    (hk : k < (batchify sequences seq_lengths sequences_feature_mask static y_sequence
      y_mask_sequence max_len batch_size use_feature_mask).length)
    (hb : b < (batchAt sequences seq_lengths sequences_feature_mask static y_sequence
      y_mask_sequence max_len batch_size use_feature_mask k).source_indices.length) :
    (batchAt sequences seq_lengths sequences_feature_mask static y_sequence
        y_mask_sequence max_len batch_size use_feature_mask k).static.getD b [] =
      static.getD ((batchAt sequences seq_lengths sequences_feature_mask static
        y_sequence y_mask_sequence max_len batch_size use_feature_mask
        k).source_indices.getD b 0) [] ∧
    (batchAt sequences seq_lengths sequences_feature_mask static y_sequence
        y_mask_sequence max_len batch_size use_feature_mask k).sequence.getD b [] =
      padRows ((batchAt sequences seq_lengths sequences_feature_mask static y_sequence
          y_mask_sequence max_len batch_size use_feature_mask
          k).sorted_seq_lengths.headD 0) D
        (sequences.getD ((batchAt sequences seq_lengths sequences_feature_mask static
          y_sequence y_mask_sequence max_len batch_size use_feature_mask
          k).source_indices.getD b 0) []) ∧
    ((batchAt sequences seq_lengths sequences_feature_mask static y_sequence
        y_mask_sequence max_len batch_size use_feature_mask k).y).map
        (fun l => l.getD b 0) =
      y_sequence.map (fun l => l.getD ((batchAt sequences seq_lengths
        sequences_feature_mask static y_sequence y_mask_sequence max_len batch_size
        use_feature_mask k).source_indices.getD b 0) 0) ∧
    ((batchAt sequences seq_lengths sequences_feature_mask static y_sequence
        y_mask_sequence max_len batch_size use_feature_mask k).y_mask).map
        (fun l => l.getD b 0) =
      y_mask_sequence.map (fun l => l.getD ((batchAt sequences seq_lengths
        sequences_feature_mask static y_sequence y_mask_sequence max_len batch_size
        use_feature_mask k).source_indices.getD b 0) 0) ∧
    ((batchAt sequences seq_lengths sequences_feature_mask static y_sequence
        y_mask_sequence max_len batch_size use_feature_mask k).feature_mask).map
        (fun l => l.getD b []) =
      sequences_feature_mask.map (fun m => padRows ((batchAt sequences seq_lengths
          sequences_feature_mask static y_sequence y_mask_sequence max_len batch_size
          use_feature_mask k).sorted_seq_lengths.headD 0) D
        (m.getD ((batchAt sequences seq_lengths sequences_feature_mask static
          y_sequence y_mask_sequence max_len batch_size use_feature_mask
          k).source_indices.getD b 0) [])) := by
  have hmb : batchAt sequences seq_lengths sequences_feature_mask static y_sequence
      y_mask_sequence max_len batch_size use_feature_mask k =
      get_mini_batch
        (batchIndices (keepIndex seq_lengths max_len).length batch_size k)
        (gather sequences [] (keepIndex seq_lengths max_len))
        (gather seq_lengths 0 (keepIndex seq_lengths max_len))
        (sequences_feature_mask.map
          (fun m => gather m [] (keepIndex seq_lengths max_len)))
        (gather static [] (keepIndex seq_lengths max_len))
        (y_sequence.map (fun m => gather m 0 (keepIndex seq_lengths max_len)))
        (y_mask_sequence.map (fun m => gather m 0 (keepIndex seq_lengths max_len)))
        (keepIndex seq_lengths max_len) use_feature_mask := by
    rw [batchAt, getD_eq_getElem _ default hk]
    simp only [batchify, gather_length, List.getElem_map, List.getElem_range]
  rw [hmb] at hb ⊢
  have hbc : b < (batchIndices (keepIndex seq_lengths max_len).length batch_size
      k).length := by
    simpa [get_mini_batch, sortedMBI_length] using hb
  have hchunk_sub : ∀ i ∈ batchIndices (keepIndex seq_lengths max_len).length
      batch_size k, i < (keepIndex seq_lengths max_len).length := by
    intro i hi
    have h1 : i ∈ List.range (keepIndex seq_lengths max_len).length :=
      List.drop_subset _ _ (List.mem_of_mem_take hi)
    simpa using h1
  have hkeep_lt : ∀ j, j < (keepIndex seq_lengths max_len).length →
      (keepIndex seq_lengths max_len).getD j 0 < seq_lengths.length := by
    intro j hj
    have hmem : (keepIndex seq_lengths max_len).getD j 0 ∈
        keepIndex seq_lengths max_len := by
      rw [getD_eq_getElem _ 0 hj]
      exact List.getElem_mem hj
    have h1 := (List.mem_filter.mp hmem).1
    simpa using h1
  have hstored2 : ∀ i ∈ batchIndices (keepIndex seq_lengths max_len).length
      batch_size k,
      (gather seq_lengths 0 (keepIndex seq_lengths max_len)).getD i 0 ≤
        ((gather sequences [] (keepIndex seq_lengths max_len)).getD i []).length := by
    intro i hi
    have hiN := hchunk_sub i hi
    rw [gather_getD seq_lengths 0 _ hiN, gather_getD sequences [] _ hiN]
    exact hstored _ (hkeep_lt i hiN)
  have hdim2 : ∀ i ∈ batchIndices (keepIndex seq_lengths max_len).length batch_size k,
      ∀ r ∈ (gather sequences [] (keepIndex seq_lengths max_len)).getD i [],
        r.length = D := by
    intro i hi r hr
    have hiN := hchunk_sub i hi
    rw [gather_getD sequences [] _ hiN] at hr
    have hklt := hkeep_lt i hiN
    have hslen : (keepIndex seq_lengths max_len).getD i 0 < sequences.length := by
      omega
    have hmem : sequences.getD ((keepIndex seq_lengths max_len).getD i 0) [] ∈
        sequences := by
      rw [getD_eq_getElem sequences [] hslen]
      exact List.getElem_mem hslen
    exact hdim _ hmem r hr
  have hfm2 : ∀ m2, sequences_feature_mask.map
      (fun m => gather m [] (keepIndex seq_lengths max_len)) = some m2 →
      ((∀ i ∈ batchIndices (keepIndex seq_lengths max_len).length batch_size k,
        (gather seq_lengths 0 (keepIndex seq_lengths max_len)).getD i 0 ≤
          (m2.getD i []).length) ∧
       (∀ i ∈ batchIndices (keepIndex seq_lengths max_len).length batch_size k,
        ∀ r ∈ m2.getD i [], r.length = D)) := by
    intro m2 hm2
    cases hsf : sequences_feature_mask with
    | none =>
      rw [hsf] at hm2
      simp at hm2
    | some m =>
      rw [hsf] at hm2
      simp only [Option.map_some'] at hm2
      obtain ⟨hfmlen, hfmstored, hfmdim⟩ := hfm m hsf
      have hm2e : m2 = gather m [] (keepIndex seq_lengths max_len) :=
        (Option.some.inj hm2).symm
      subst hm2e
      constructor
      · intro i hi
        have hiN := hchunk_sub i hi
        rw [gather_getD seq_lengths 0 _ hiN, gather_getD m [] _ hiN]
        exact hfmstored _ (hkeep_lt i hiN)
      · intro i hi r hr
        have hiN := hchunk_sub i hi
        rw [gather_getD m [] _ hiN] at hr
        have hklt := hkeep_lt i hiN
        have hmlen : (keepIndex seq_lengths max_len).getD i 0 < m.length := by
          omega
        have hmem : m.getD ((keepIndex seq_lengths max_len).getD i 0) [] ∈ m := by
          rw [getD_eq_getElem m [] hmlen]
          exact List.getElem_mem hmlen
        exact hfmdim _ hmem r hr
  obtain ⟨htm, hsrc, hstat, hseq, hy, hym, hfmc⟩ :=
    get_mini_batch_fidelity
      (batchIndices (keepIndex seq_lengths max_len).length batch_size k)
      (gather sequences [] (keepIndex seq_lengths max_len))
      (gather seq_lengths 0 (keepIndex seq_lengths max_len))
      (sequences_feature_mask.map (fun m => gather m [] (keepIndex seq_lengths max_len)))
      (gather static [] (keepIndex seq_lengths max_len))
      (y_sequence.map (fun m => gather m 0 (keepIndex seq_lengths max_len)))
      (y_mask_sequence.map (fun m => gather m 0 (keepIndex seq_lengths max_len)))
      (keepIndex seq_lengths max_len) use_feature_mask D
      hstored2 hdim2 hfm2 hbc
  have hjmem : (sortedMBI (gather seq_lengths 0 (keepIndex seq_lengths max_len))
      (batchIndices (keepIndex seq_lengths max_len).length batch_size k)).getD b 0 ∈
      batchIndices (keepIndex seq_lengths max_len).length batch_size k :=
    sortedMBI_getD_mem _ _ hbc
  have hjN : (sortedMBI (gather seq_lengths 0 (keepIndex seq_lengths max_len))
      (batchIndices (keepIndex seq_lengths max_len).length batch_size k)).getD b 0 <
      (keepIndex seq_lengths max_len).length := hchunk_sub _ hjmem
  refine ⟨?_, ?_, ?_, ?_, ?_⟩
  · rw [hstat, hsrc, gather_getD static [] _ hjN]
  · rw [hseq, htm, hsrc, gather_getD sequences [] _ hjN]
  · rw [hy, hsrc]
    cases y_sequence with
    | none => rfl
    | some l =>
      simp only [Option.map_some']
      rw [gather_getD l 0 _ hjN]
  · rw [hym, hsrc]
    cases y_mask_sequence with
    | none => rfl
    | some l =>
      simp only [Option.map_some']
      rw [gather_getD l 0 _ hjN]
  · rw [hfmc, htm, hsrc]
    cases sequences_feature_mask with
    | none => rfl
    | some m =>
      simp only [Option.map_some']
      rw [gather_getD m [] _ hjN]

/-- Witness for C2 at a concrete two-example dataset (with feature mask, `y`
and `y_mask` present), batch 0, row 1. -/
theorem C2_source_indices_fidelity_witness :
    (batchAt [[[1], [2]], [[3]]] [2, 1] (some [[[9], [9]], [[8]]]) [[10], [20]]
        (some [5, 6]) (some [1, 0]) 10 2 true 0).static.getD 1 [] =
      ([[10], [20]] : List (List ℤ)).getD
        ((batchAt [[[1], [2]], [[3]]] [2, 1] (some [[[9], [9]], [[8]]]) [[10], [20]]
          (some [5, 6]) (some [1, 0]) 10 2 true 0).source_indices.getD 1 0) [] ∧
    (batchAt [[[1], [2]], [[3]]] [2, 1] (some [[[9], [9]], [[8]]]) [[10], [20]]
        (some [5, 6]) (some [1, 0]) 10 2 true 0).sequence.getD 1 [] =
      padRows ((batchAt [[[1], [2]], [[3]]] [2, 1] (some [[[9], [9]], [[8]]])
          [[10], [20]] (some [5, 6]) (some [1, 0]) 10 2 true
          0).sorted_seq_lengths.headD 0) 1
        (([[[1], [2]], [[3]]] : List (List (List ℤ))).getD
          ((batchAt [[[1], [2]], [[3]]] [2, 1] (some [[[9], [9]], [[8]]]) [[10], [20]]
            (some [5, 6]) (some [1, 0]) 10 2 true 0).source_indices.getD 1 0) []) ∧
    ((batchAt [[[1], [2]], [[3]]] [2, 1] (some [[[9], [9]], [[8]]]) [[10], [20]]
        (some [5, 6]) (some [1, 0]) 10 2 true 0).y).map (fun l => l.getD 1 0) =
      (some ([5, 6] : List ℤ)).map (fun l => l.getD
        ((batchAt [[[1], [2]], [[3]]] [2, 1] (some [[[9], [9]], [[8]]]) [[10], [20]]
          (some [5, 6]) (some [1, 0]) 10 2 true 0).source_indices.getD 1 0) 0) ∧
    ((batchAt [[[1], [2]], [[3]]] [2, 1] (some [[[9], [9]], [[8]]]) [[10], [20]]
        (some [5, 6]) (some [1, 0]) 10 2 true 0).y_mask).map (fun l => l.getD 1 0) =
      (some ([1, 0] : List ℤ)).map (fun l => l.getD
        ((batchAt [[[1], [2]], [[3]]] [2, 1] (some [[[9], [9]], [[8]]]) [[10], [20]]
          (some [5, 6]) (some [1, 0]) 10 2 true 0).source_indices.getD 1 0) 0) ∧
    ((batchAt [[[1], [2]], [[3]]] [2, 1] (some [[[9], [9]], [[8]]]) [[10], [20]]
        (some [5, 6]) (some [1, 0]) 10 2 true 0).feature_mask).map
        (fun l => l.getD 1 []) =
      (some ([[[9], [9]], [[8]]] : List (List (List ℤ)))).map (fun m =>
        padRows ((batchAt [[[1], [2]], [[3]]] [2, 1] (some [[[9], [9]], [[8]]])
            [[10], [20]] (some [5, 6]) (some [1, 0]) 10 2 true
            0).sorted_seq_lengths.headD 0) 1
          (m.getD ((batchAt [[[1], [2]], [[3]]] [2, 1] (some [[[9], [9]], [[8]]])
            [[10], [20]] (some [5, 6]) (some [1, 0]) 10 2 true
            0).source_indices.getD 1 0) [])) :=
  C2_source_indices_fidelity [[[1], [2]], [[3]]] [2, 1] (some [[[9], [9]], [[8]]])
    [[10], [20]] (some [5, 6]) (some [1, 0]) 10 2 true 1 (by decide) (by decide)
    (by decide)
    (fun m hm => by
      injection hm with h
      subst h
      exact ⟨by decide, by decide, by decide⟩)
    0 1 (by decide) (by decide)

/-! ### Channel-width lemmas -/

/-- Either the batch maximum is 0 or the first sorted example of any parallel
array whose stored lengths dominate the declared lengths reaches `T_max`. -/
theorem sorted_hfull (A : List (List (List ℤ))) (sl : List ℕ) (idx : List ℕ)
    (hstored : ∀ i ∈ idx, sl.getD i 0 ≤ (A.getD i []).length) :
    tMax sl idx = 0 ∨ ((sortedMBI sl idx) ≠ [] ∧
      tMax sl idx ≤ (A.getD ((sortedMBI sl idx).getD 0 0) []).length) := by
  rcases Nat.eq_zero_or_pos (tMax sl idx) with h0 | h0
  · exact Or.inl h0
  · have hne : 0 < idx.length := idx_ne_of_tMax_pos h0
    refine Or.inr ⟨?_, ?_⟩
    · intro hc
      have h1 : (sortedMBI sl idx).length = 0 := by rw [hc]; rfl
      rw [sortedMBI_length] at h1
      omega
    · have hj0 : (sortedMBI sl idx).getD 0 0 ∈ idx := sortedMBI_getD_mem sl idx hne
      have h1 := hstored _ hj0
      have h2 := tMax_eq_first_sorted sl idx hne
      omega

theorem catChannels_length (a b : List (List (List ℤ))) :
    (catChannels a b).length = min a.length b.length := by
  simp [catChannels]

theorem catChannels_shape (a b : List (List (List ℤ))) (T Da Db : ℕ)
    (hra : ∀ r ∈ a, r.length = T) (hrb : ∀ r ∈ b, r.length = T)
    (hda : ∀ r ∈ a, ∀ e ∈ r, e.length = Da)
    (hdb : ∀ r ∈ b, ∀ e ∈ r, e.length = Db) :
    (∀ r ∈ catChannels a b, r.length = T) ∧
    (∀ r ∈ catChannels a b, ∀ e ∈ r, e.length = Da + Db) := by
  have hrow : ∀ r ∈ catChannels a b, r.length = T ∧ ∀ e ∈ r, e.length = Da + Db := by
    intro r hr
    obtain ⟨i, hi, hri⟩ := List.mem_iff_getElem.mp hr
    have hia : i < a.length := by
      rw [catChannels_length] at hi
      omega
    have hib : i < b.length := by
      rw [catChannels_length] at hi
      omega
    have hget : (catChannels a b)[i] =
        (a[i]).zipWith (fun ea eb => ea ++ eb) (b[i]) := by
      simp [catChannels, List.getElem_zipWith]
    have hal : (a[i]).length = T := hra _ (List.getElem_mem hia)
    have hbl : (b[i]).length = T := hrb _ (List.getElem_mem hib)
    constructor
    · rw [← hri, hget]
      simp only [List.length_zipWith]
      omega
    · intro e he
      rw [← hri, hget] at he
      obtain ⟨t, ht, hte⟩ := List.mem_iff_getElem.mp he
      have hta : t < (a[i]).length := by
        simp only [List.length_zipWith] at ht
        omega
      have htb : t < (b[i]).length := by
        simp only [List.length_zipWith] at ht
        omega
      have hev : ((a[i]).zipWith (fun ea eb => ea ++ eb) (b[i]))[t] =
          ((a[i])[t]) ++ ((b[i])[t]) := List.getElem_zipWith
      rw [← hte, hev]
      rw [List.length_append]
      rw [hda _ (List.getElem_mem hia) _ (List.getElem_mem hta),
        hdb _ (List.getElem_mem hib) _ (List.getElem_mem htb)]
  exact ⟨fun r hr => (hrow r hr).1, fun r hr => (hrow r hr).2⟩

/-- Reversal preserves the feature width of every entry. -/
theorem reverse_sequences_width (x : List (List (List ℤ))) (L : List ℕ) (T w : ℕ)
    (hLx : L.length = x.length)
    (hrow : ∀ r ∈ x, r.length = T)
    (hbound : ∀ b, b < x.length → L.getD b 0 ≤ T)
    (hdim : ∀ r ∈ x, ∀ e ∈ r, e.length = w) :
    ∀ r ∈ reverse_sequences x L, ∀ e ∈ r, e.length = w := by
  intro r hr e he
  obtain ⟨b, hb, hbr⟩ := List.mem_iff_getElem.mp hr
  subst hbr
  have hbx : b < x.length := by
    rw [reverse_sequences_length] at hb
    omega
  have hbL : b < L.length := by omega
  have hxmem : x.getD b [] ∈ x := by
    rw [getD_eq_getElem x [] hbx]
    exact List.getElem_mem hbx
  have hxrow : (x.getD b []).length = T := hrow _ hxmem
  have hxe : ∀ t, t < T → ((x.getD b []).getD t []).length = w := by
    intro t ht
    have ht' : t < (x.getD b []).length := by omega
    refine hdim _ hxmem _ ?_
    rw [getD_eq_getElem _ [] ht']
    exact List.getElem_mem ht'
  obtain ⟨t, ht, hte⟩ := List.mem_iff_getElem.mp he
  subst hte
  have hg1 : ((reverse_sequences x L)[b]) = (reverse_sequences x L).getD b [] :=
    (getD_eq_getElem _ [] hb).symm
  have htT : t < T := by
    have h1 : ((reverse_sequences x L)[b]).length =
        ((reverse_sequences x L).getD b []).length := by rw [hg1]
    have h2 := reverse_sequences_row_length x L hbx hbL
    omega
  have hg2 : ((reverse_sequences x L)[b])[t] =
      ((reverse_sequences x L).getD b []).getD t [] := by
    rw [getD_eq_getElem (reverse_sequences x L) [] hb,
      getD_eq_getElem ((reverse_sequences x L)[b]) [] ht]
  rw [hg2, reverse_sequences_entry x L hbx hbL (by omega)]
  by_cases hc : t < L.getD b 0
  · rw [if_pos hc]
    exact hxe _ (by have := hbound b hbx; omega)
  · rw [if_neg hc]
    rw [zeroRow_eq, List.length_replicate]
    exact hxe t htT

/-! ### Claim C8 -/

@[simp] theorem paddedBatch_length (seqs : List (List (List ℤ))) (sl : List ℕ)
    (idx : List ℕ) : (paddedBatch seqs sl idx).length = idx.length := by
  simp [paddedBatch]

@[simp] theorem paddedFeatureMask_length (m : List (List (List ℤ))) (sl : List ℕ)
    (idx : List ℕ) : (paddedFeatureMask m sl idx).length = idx.length := by
  simp [paddedFeatureMask]

/-- C8: in `get_mini_batch`, when a feature mask is present and
`use_feature_mask = True`, the reversed representation handed to packing is
the channel-concatenation of the padded sequence followed by the padded
feature mask and carries `2 * input_dim` channels; when a feature mask is
present and `use_feature_mask = False`, only the plain sequence
(`input_dim` channels) is reversed and packed while the dense sorted padded
feature mask is still returned on the MiniBatch; when no feature mask is
present, the plain sequence alone is reversed and packed. -/
theorem C8_feature_mask_fusion (idx : List ℕ) (seqs : List (List (List ℤ)))
    (sl : List ℕ) (m : List (List (List ℤ))) (st : List (List ℤ))
    (ys yms : Option (List ℤ)) (inds : List ℕ) (D : ℕ)
    (hstored : ∀ i ∈ idx, sl.getD i 0 ≤ (seqs.getD i []).length)
    (hdim : ∀ i ∈ idx, ∀ r ∈ seqs.getD i [], r.length = D)
    (hfmstored : ∀ i ∈ idx, sl.getD i 0 ≤ (m.getD i []).length)
    (hfmdim : ∀ i ∈ idx, ∀ r ∈ m.getD i [], r.length = D) :
    ((get_mini_batch idx seqs sl (some m) st ys yms inds true).reversed_packed =
       pack_padded_sequence (reverse_sequences
         (catChannels (paddedBatch seqs sl idx) (paddedFeatureMask m sl idx))
         (sortedSeqLengths sl idx)) (sortedSeqLengths sl idx) ∧
     (∀ r ∈ gmbReversedDense idx seqs sl (some m) true, ∀ e ∈ r, e.length = 2 * D) ∧
     (get_mini_batch idx seqs sl (some m) st ys yms inds true).feature_mask =
       some (paddedFeatureMask m sl idx)) ∧
    ((get_mini_batch idx seqs sl (some m) st ys yms inds false).reversed_packed =
       pack_padded_sequence (reverse_sequences (paddedBatch seqs sl idx)
         (sortedSeqLengths sl idx)) (sortedSeqLengths sl idx) ∧
     (∀ r ∈ gmbReversedDense idx seqs sl (some m) false, ∀ e ∈ r, e.length = D) ∧
     (get_mini_batch idx seqs sl (some m) st ys yms inds false).feature_mask =
       some (paddedFeatureMask m sl idx)) ∧
    (∀ u, (get_mini_batch idx seqs sl none st ys yms inds u).reversed_packed =
       pack_padded_sequence (reverse_sequences (paddedBatch seqs sl idx)
         (sortedSeqLengths sl idx)) (sortedSeqLengths sl idx) ∧
     (∀ r ∈ gmbReversedDense idx seqs sl none u, ∀ e ∈ r, e.length = D)) := by
  have hfullS := sorted_hfull seqs sl idx hstored
  have hfullM := sorted_hfull m sl idx hfmstored
  have hdimS : ∀ j ∈ sortedMBI sl idx, ∀ r ∈ seqs.getD j [], r.length = D :=
    fun j hj => hdim j ((sortedMBI_perm sl idx).mem_iff.mp hj)
  have hdimM : ∀ j ∈ sortedMBI sl idx, ∀ r ∈ m.getD j [], r.length = D :=
    fun j hj => hfmdim j ((sortedMBI_perm sl idx).mem_iff.mp hj)
  have hrowS : ∀ r ∈ paddedBatch seqs sl idx, r.length = tMax sl idx :=
    pad_truncSeqs_row_length seqs (sortedMBI sl idx) (tMax sl idx) hfullS
  have hrowM : ∀ r ∈ paddedFeatureMask m sl idx, r.length = tMax sl idx :=
    pad_truncSeqs_row_length m (sortedMBI sl idx) (tMax sl idx) hfullM
  have hwidS : ∀ r ∈ paddedBatch seqs sl idx, ∀ e ∈ r, e.length = D :=
    pad_truncSeqs_width seqs (sortedMBI sl idx) (tMax sl idx) D hfullS hdimS
  have hwidM : ∀ r ∈ paddedFeatureMask m sl idx, ∀ e ∈ r, e.length = D :=
    pad_truncSeqs_width m (sortedMBI sl idx) (tMax sl idx) D hfullM hdimM
  have hcat := catChannels_shape (paddedBatch seqs sl idx) (paddedFeatureMask m sl idx)
    (tMax sl idx) D D hrowS hrowM hwidS hwidM
  have hbound : ∀ b, b < idx.length → (sortedSeqLengths sl idx).getD b 0 ≤ tMax sl idx :=
    fun b hb => sortedSeqLengths_getD_le sl idx hb
  have hwid2 : ∀ r ∈ reverse_sequences
      (catChannels (paddedBatch seqs sl idx) (paddedFeatureMask m sl idx))
      (sortedSeqLengths sl idx), ∀ e ∈ r, e.length = 2 * D := by
    have h1 := reverse_sequences_width
      (catChannels (paddedBatch seqs sl idx) (paddedFeatureMask m sl idx))
      (sortedSeqLengths sl idx) (tMax sl idx) (D + D)
      (by rw [catChannels_length]; simp)
      hcat.1
      (by
        intro b hb
        rw [catChannels_length] at hb
        simp only [paddedBatch_length, paddedFeatureMask_length, Nat.min_self] at hb
        exact hbound b hb)
      hcat.2
    intro r hr e he
    rw [h1 r hr e he]
    omega
  have hwid1 : ∀ r ∈ reverse_sequences (paddedBatch seqs sl idx)
      (sortedSeqLengths sl idx), ∀ e ∈ r, e.length = D :=
    reverse_sequences_width (paddedBatch seqs sl idx) (sortedSeqLengths sl idx)
      (tMax sl idx) D (by simp) hrowS
      (by
        intro b hb
        rw [paddedBatch_length] at hb
        exact hbound b hb)
      hwidS
  exact ⟨⟨rfl, hwid2, rfl⟩, ⟨rfl, hwid1, rfl⟩, fun u => ⟨rfl, hwid1⟩⟩

/-- Witness for C8 at a concrete input with `input_dim = 1`: the feature mask
is returned on the MiniBatch, and the fused reversed entry at (0,0) carries
`2 * 1` channels. -/
theorem C8_feature_mask_fusion_witness :
    (get_mini_batch [0, 1] [[[1], [2]], [[3]]] [2, 1] (some [[[9], [9]], [[8]]])
        [[0], [0]] none none [0, 1] true).feature_mask =
      some (paddedFeatureMask [[[9], [9]], [[8]]] [2, 1] [0, 1]) ∧
    (((gmbReversedDense [0, 1] [[[1], [2]], [[3]]] [2, 1] (some [[[9], [9]], [[8]]])
        true).getD 0 []).getD 0 []).length = 2 * 1 := by
  have h := C8_feature_mask_fusion [0, 1] [[[1], [2]], [[3]]] [2, 1]
    [[[9], [9]], [[8]]] [[0], [0]] none none [0, 1] 1
    (by decide) (by decide) (by decide) (by decide)
  refine ⟨h.1.2.2, ?_⟩
  exact h.1.2.1
    ((gmbReversedDense [0, 1] [[[1], [2]], [[3]]] [2, 1] (some [[[9], [9]], [[8]]])
      true).getD 0 []) (by decide)
    (((gmbReversedDense [0, 1] [[[1], [2]], [[3]]] [2, 1] (some [[[9], [9]], [[8]]])
      true).getD 0 []).getD 0 []) (by decide)

/-! ### Claim C9 -/

/-- C9 counterexample: `static` has 2 rows while `seq_lengths` and `sequences`
have 1 — the parallel arrays disagree in leading dimension — yet `batchify`
surfaces no error: it returns one fully-built MiniBatch whose static row is
taken from the kept index, silently ignoring the extra row. -/
theorem C9_counterexample :
    (batchify [[[1]]] [1] none [[7], [8]] none none 10 1 false).length = 1 ∧
    (batchify [[[1]]] [1] none [[7], [8]] none none 10 1 false).map
      (fun mb => mb.static) = [[[7]]] := by
  exact ⟨by decide, by decide⟩

/-- C9 (amended): `batchify` performs no leading-dimension validation at
entry.  It reads each parallel array only at the kept indices, so an array
longer than `seq_lengths` is accepted silently — appending extra rows to
`static` leaves the result unchanged — and a complete MiniBatch list of the
usual `⌈N/batch_size⌉` batches is returned.  (Conversely, an array with too
few rows fails only when numpy indexing first touches a missing row, with an
IndexError, not a dedicated shape error.) -/
theorem C9_no_shape_check (sequences : List (List (List ℤ))) (seq_lengths : List ℕ)
    (sequences_feature_mask : Option (List (List (List ℤ))))
    (static extra : List (List ℤ)) (y_sequence y_mask_sequence : Option (List ℤ))
    (max_len batch_size : ℕ) (use_feature_mask : Bool)
    (hkeep : ∀ i ∈ keepIndex seq_lengths max_len, i < static.length) :
    batchify sequences seq_lengths sequences_feature_mask (static ++ extra)
      y_sequence y_mask_sequence max_len batch_size use_feature_mask =
    batchify sequences seq_lengths sequences_feature_mask static
      y_sequence y_mask_sequence max_len batch_size use_feature_mask ∧
    (batchify sequences seq_lengths sequences_feature_mask (static ++ extra)
      y_sequence y_mask_sequence max_len batch_size use_feature_mask).length =
      nMiniBatches (keepIndex seq_lengths max_len).length batch_size := by
  have hgather : gather (static ++ extra) [] (keepIndex seq_lengths max_len) =
      gather static [] (keepIndex seq_lengths max_len) := by
    simp only [gather]
    refine List.map_congr_left (fun i hi => ?_)
    exact getD_append_left static extra [] (hkeep i hi)
  constructor
  · simp only [batchify, hgather]
  · simp [batchify]

/-- Witness for the amended C9: appending a stray second static row changes
nothing and one batch is still built. -/
theorem C9_no_shape_check_witness :
    batchify [[[1]]] [1] none ([[7]] ++ [[8]]) none none 10 1 false =
      batchify [[[1]]] [1] none [[7]] none none 10 1 false ∧
    (batchify [[[1]]] [1] none ([[7]] ++ [[8]]) none none 10 1 false).length =
      nMiniBatches (keepIndex [1] 10).length 1 :=
  C9_no_shape_check [[[1]]] [1] none [[7]] [[8]] none none 10 1 false (by decide)

/-! ### Claim C10 -/

/-- C10: when `sequences_feature_mask` is `None`, `get_mini_batch` ignores the
`use_feature_mask` flag entirely: for every input and both flag values the
result is identical (so passing `use_feature_mask = True` without a feature
mask silently degrades to the no-mask policy rather than raising), the
reversed/packed representation is built from the plain padded sequence alone,
and the returned `feature_mask` is `None`. -/
theorem C10_none_feature_mask_ignores_flag (mini_batch_indices : List ℕ)
    (sequences : List (List (List ℤ))) (seq_lengths : List ℕ)
    (static : List (List ℤ)) (y_sequence y_mask_sequence : Option (List ℤ))
    (indices_dataset : List ℕ) (u1 u2 : Bool) :
    get_mini_batch mini_batch_indices sequences seq_lengths none static y_sequence
      y_mask_sequence indices_dataset u1 =
    get_mini_batch mini_batch_indices sequences seq_lengths none static y_sequence
      y_mask_sequence indices_dataset u2 ∧
    (get_mini_batch mini_batch_indices sequences seq_lengths none static y_sequence
      y_mask_sequence indices_dataset u1).feature_mask = none ∧
    (get_mini_batch mini_batch_indices sequences seq_lengths none static y_sequence
      y_mask_sequence indices_dataset u1).reversed_packed =
      pack_padded_sequence (reverse_sequences (paddedBatch sequences seq_lengths
        mini_batch_indices) (sortedSeqLengths seq_lengths mini_batch_indices))
        (sortedSeqLengths seq_lengths mini_batch_indices) := by
  refine ⟨?_, rfl, rfl⟩
  rfl

end DMM
